import Mathlib

/-
  Verification of the opencode-synced configuration synchronization engine.

  The definitions below are a shallow embedding of the TypeScript source:
  * JSON-like runtime values (including the JavaScript `undefined`) as `JValue`;
  * the override merge engine `deepMerge` / `stripOverrides` from
    src/sync/config.ts;
  * the structural equality `isDeepEqual` and `copyConfigForRepo` from the
    applier;
  * the sync-plan builder `buildSyncPlan` from src/sync/paths.ts;
  * the lock manager `tryAcquireSyncLock` from src/sync/lock.ts;
  * the 1Password secrets backend lookup/pull/push from
    src/sync/secrets-backend.ts;
  * the extra-path applier `applyExtraPaths` / `applyExtraPathModes` /
    `resolveExtraPathItem` from src/sync/apply.ts.

  JavaScript plain objects are modelled as ordered association lists
  (`List (String × JValue)`): JS objects preserve insertion order, property
  update keeps position, and a new property is appended at the end, which the
  operations below reproduce.
-/

set_option maxHeartbeats 1000000

/-- A JavaScript runtime value as manipulated by the config engine. `undef`
models JavaScript `undefined`, distinct from JSON `null`; numbers are
modelled as integers (the configs hold no floats that matter here). -/
inductive JValue where
  | undef
  | null
  | bool (b : Bool)
  | num (n : Int)
  | str (s : String)
  | arr (elems : List JValue)
  | obj (fields : List (String × JValue))
deriving Repr

/-- The `isPlainObject` check of config.ts, specialised to our value model:
only `obj` values are plain objects (arrays, null and primitives are not). -/
def isObjB : JValue → Bool
  | .obj _ => true
  | _ => false

/-- True exactly on the JavaScript `undefined` value. -/
def isUndef : JValue → Bool
  | .undef => true
  | _ => false

/-- JavaScript truthiness of a value (used for the `!baseValue` test in
`stripOverrides`). -/
def truthy : JValue → Bool
  | .undef => false
  | .null => false
  | .bool b => b
  | .num n => n != 0
  | .str s => s != ""
  | .arr _ => true
  | .obj _ => true

/-- Property lookup on an object field list: first occurrence wins, `none`
when the key is absent (JS would read `undefined`; `jsGet` adds that). -/
def jsGetOpt : List (String × JValue) → String → Option JValue
  | [], _ => none
  | (k, v) :: rest, key => if k = key then some v else jsGetOpt rest key

/-- JavaScript property read: an absent key reads as `undefined`. -/
def jsGet (l : List (String × JValue)) (key : String) : JValue :=
  ((jsGetOpt l key).getD .undef)

/-- Whether a key is a present own property. -/
def jsHas (l : List (String × JValue)) (key : String) : Bool :=
  (jsGetOpt l key).isSome

/-- Replaces an entry with the given key by the new binding, leaving other
entries unchanged (the in-place-update part of a JS property write). -/
def updEntry (key : String) (v : JValue) (p : String × JValue) : String × JValue :=
  if p.1 = key then (key, v) else p

/-- Property write `result[key] = value`: updates the existing entry in
place, or appends a new entry at the end, as JS objects do. -/
def jsSet (l : List (String × JValue)) (key : String) (v : JValue) :
    List (String × JValue) :=
  if jsHas l key then l.map (updEntry key v)
  else l ++ [(key, v)]

/-- Property deletion `delete result[key]`: removes the (first) entry with
the key. -/
def jsDelete : List (String × JValue) → String → List (String × JValue)
  | [], _ => []
  | (k, v) :: rest, key => if k = key then rest else (k, v) :: jsDelete rest key

mutual

/-- Shallow embedding of `deepMerge` (src/sync/config.ts): when both sides
are plain objects the override entries are folded onto a copy of the base;
otherwise an `undefined` override leaves the base and anything else replaces
it wholesale. -/
def deepMerge : JValue → JValue → JValue
  | base, ov =>
    match base, ov with
    | .obj bs, .obj os => .obj (mergeEntries bs os)
    | b, o => if isUndef o then b else o
termination_by b o => sizeOf o

/-- The `for (const [key, value] of Object.entries(override))` loop of
`deepMerge`, acting on the accumulated result. -/
def mergeEntries : List (String × JValue) → List (String × JValue) →
    List (String × JValue)
  | acc, [] => acc
  | acc, (key, v) :: rest =>
    let cur := jsGet acc key
    let newV := if isObjB v && isObjB cur then deepMerge cur v else v
    mergeEntries (jsSet acc key newV) rest
termination_by acc l => sizeOf l

end

/-- Whether an object value has no keys (`Object.keys(x).length === 0`). -/
def objEmpty : JValue → Bool
  | .obj [] => true
  | _ => false

/-- The `baseConfig ? baseConfig[key] : undefined` read of `stripOverrides`
(the base parameter is a plain object or `null`). -/
def baseValueOf (base : JValue) (key : String) : JValue :=
  match base with
  | .obj bs => jsGet bs key
  | _ => (.undef)

/-- The base argument `isPlainObject(baseValue) ? baseValue : null` passed by
`stripOverrides` to its recursive call. -/
def stripNextBase (base : JValue) (key : String) : JValue :=
  if isObjB (baseValueOf base key) then baseValueOf base key else .null

/-- One iteration of the `stripOverrides` loop, with the recursively
stripped value passed in as `stripped` (it is only consulted in the
object/object branch). -/
def stripStep (result : List (String × JValue)) (key : String) (ovV : JValue)
    (base : JValue) (stripped : JValue) : List (String × JValue) :=
  let baseValue := baseValueOf base key
  if isObjB ovV && isObjB (jsGet result key) then
    if objEmpty stripped && !truthy baseValue then jsDelete result key
    else jsSet result key stripped
  else
    if isUndef baseValue then jsDelete result key
    else jsSet result key baseValue

mutual

/-- Shallow embedding of `stripOverrides` (src/sync/config.ts). The third
argument models the `baseConfig: Record | null` parameter as a `JValue`
(`.null` for the null case). -/
def stripOverrides : JValue → JValue → JValue → JValue
  | localConfig, ov, base =>
    match localConfig, ov with
    | .obj ls, .obj os => .obj (stripEntries ls os base)
    | l, _ => l
termination_by l o b => sizeOf o

/-- The `for (const [key, overrideValue] of Object.entries(overrides))`
loop of `stripOverrides`, acting on the accumulated result. -/
def stripEntries : List (String × JValue) → List (String × JValue) → JValue →
    List (String × JValue)
  | result, [], _ => result
  | result, (key, ovV) :: rest, base =>
    stripEntries
      (stripStep result key ovV base
        (stripOverrides (jsGet result key) ovV (stripNextBase base key)))
      rest base
termination_by res l b => sizeOf l

end

/-- Keys of an object field list are pairwise distinct (true for every field
list arising from an actual JavaScript object, which cannot hold duplicate
property names). -/
def keysUnique : List (String × JValue) → Bool
  | [] => true
  | (k, _) :: rest => !(rest.any (fun p => p.1 == k)) && keysUnique rest

mutual

/-- Well-formedness of a value as the image of a real JavaScript value:
every object level has pairwise-distinct keys. -/
def wfj : JValue → Bool
  | .obj fields => keysUnique fields && wfFields fields
  | _ => true
termination_by v => sizeOf v

/-- Well-formedness of every value in a field list. -/
def wfFields : List (String × JValue) → Bool
  | [] => true
  | (_, v) :: rest => wfj v && wfFields rest
termination_by l => sizeOf l

end

/-- Compatibility of a base object with an override object: wherever the
override holds a plain object at a key the base either lacks the key or
holds a (recursively compatible) plain object there, and wherever the
override holds a non-object at a key the base does not store an explicit
`undefined`. This is exactly the region on which the round-trip law holds. -/
def compatB : List (String × JValue) → List (String × JValue) → Bool
  | _, [] => true
  | bs, (key, v) :: rest =>
    let c := match jsGetOpt bs key, v with
      | none, _ => true
      | some bv, .obj ovf =>
        match bv with
        | .obj bvf => compatB bvf ovf
        | _ => false
      | some bv, _ => !(isUndef bv)
    c && compatB bs rest
termination_by bs l => sizeOf l

@[simp]
theorem jsGetOpt_nil (key : String) : jsGetOpt [] key = none := rfl

@[simp]
theorem jsGetOpt_cons (k : String) (v : JValue) (rest : List (String × JValue))
    (key : String) :
    jsGetOpt ((k, v) :: rest) key = if k = key then some v else jsGetOpt rest key := rfl

theorem jsGetOpt_append_absent (l : List (String × JValue)) (k : String) (v : JValue)
    (h : jsHas l k = false) : jsGetOpt (l ++ [(k, v)]) k = some v := by
  induction l with
  | nil => simp
  | cons p rest ih =>
    obtain ⟨k1, v1⟩ := p
    simp only [jsHas, jsGetOpt_cons] at h
    by_cases hk : k1 = k
    · simp [hk] at h
    · simp only [List.cons_append, jsGetOpt_cons, hk, if_false]
      exact ih (by simpa [jsHas, hk] using h)

theorem jsGetOpt_append_ne (l : List (String × JValue)) (k j : String) (v : JValue)
    (h : k ≠ j) : jsGetOpt (l ++ [(k, v)]) j = jsGetOpt l j := by
  induction l with
  | nil => simp [h]
  | cons p rest ih =>
    obtain ⟨k1, v1⟩ := p
    by_cases hk : k1 = j <;> simp [hk, ih]

theorem updEntry_self (k : String) (v v1 : JValue) :
    updEntry k v (k, v1) = (k, v) := by
  simp [updEntry]

theorem updEntry_other (k : String) (v : JValue) (p : String × JValue)
    (h : p.1 ≠ k) : updEntry k v p = p := by
  simp [updEntry, h]

theorem jsGetOpt_map_set_self (l : List (String × JValue)) (k : String) (v : JValue)
    (h : jsHas l k = true) :
    jsGetOpt (l.map (updEntry k v)) k = some v := by
  induction l with
  | nil => simp [jsHas] at h
  | cons p rest ih =>
    obtain ⟨k1, v1⟩ := p
    by_cases hk : k1 = k
    · subst hk
      rw [List.map_cons, updEntry_self]
      simp
    · rw [List.map_cons, updEntry_other k v (k1, v1) hk]
      simp only [jsHas, jsGetOpt_cons, hk, if_false] at h
      simp only [jsGetOpt_cons, hk, if_false]
      exact ih h

theorem jsGetOpt_map_set_ne (l : List (String × JValue)) (k j : String) (v : JValue)
    (h : k ≠ j) :
    jsGetOpt (l.map (updEntry k v)) j = jsGetOpt l j := by
  induction l with
  | nil => simp
  | cons p rest ih =>
    obtain ⟨k1, v1⟩ := p
    by_cases hk : k1 = k
    · subst hk
      rw [List.map_cons, updEntry_self]
      simp only [jsGetOpt_cons, h, if_false, ih]
    · rw [List.map_cons, updEntry_other k v (k1, v1) hk]
      simp only [jsGetOpt_cons, ih]

theorem jsGetOpt_set_self (l : List (String × JValue)) (k : String) (v : JValue) :
    jsGetOpt (jsSet l k v) k = some v := by
  unfold jsSet
  by_cases h : jsHas l k
  · simp only [h, if_true]; exact jsGetOpt_map_set_self l k v h
  · simp only [h, if_false]
    exact jsGetOpt_append_absent l k v (by simpa using h)

theorem jsGetOpt_set_ne (l : List (String × JValue)) (k j : String) (v : JValue)
    (h : k ≠ j) : jsGetOpt (jsSet l k v) j = jsGetOpt l j := by
  unfold jsSet
  by_cases hk : jsHas l k
  · simp only [hk, if_true]; exact jsGetOpt_map_set_ne l k j v h
  · simp only [hk, if_false]; exact jsGetOpt_append_ne l k j v h

theorem jsHas_set_self (l : List (String × JValue)) (k : String) (v : JValue) :
    jsHas (jsSet l k v) k = true := by
  simp [jsHas, jsGetOpt_set_self]

theorem jsHas_set_ne (l : List (String × JValue)) (k j : String) (v : JValue)
    (h : k ≠ j) : jsHas (jsSet l k v) j = jsHas l j := by
  simp [jsHas, jsGetOpt_set_ne l k j v h]

theorem jsGetOpt_delete_ne (l : List (String × JValue)) (k j : String)
    (h : k ≠ j) : jsGetOpt (jsDelete l k) j = jsGetOpt l j := by
  induction l with
  | nil => simp [jsDelete]
  | cons p rest ih =>
    obtain ⟨k1, v1⟩ := p
    by_cases hk : k1 = k
    · subst hk; simp [jsDelete, h]
    · by_cases hj : k1 = j <;> simp [jsDelete, hk, hj, Ne.symm h, ih]

theorem jsHas_delete_ne (l : List (String × JValue)) (k j : String)
    (h : k ≠ j) : jsHas (jsDelete l k) j = jsHas l j := by
  simp [jsHas, jsGetOpt_delete_ne l k j h]

theorem jsDelete_append_absent (l : List (String × JValue)) (k : String) (v : JValue)
    (h : jsHas l k = false) : jsDelete (l ++ [(k, v)]) k = l := by
  induction l with
  | nil => simp [jsDelete]
  | cons p rest ih =>
    obtain ⟨k1, v1⟩ := p
    simp only [jsHas, jsGetOpt_cons] at h
    by_cases hk : k1 = k
    · simp [hk] at h
    · simp only [List.cons_append, jsDelete, hk, if_false, List.cons.injEq, true_and]
      exact ih (by simpa [jsHas, hk] using h)

theorem jsDelete_append_present (l t : List (String × JValue)) (k : String)
    (h : jsHas l k = true) : jsDelete (l ++ t) k = jsDelete l k ++ t := by
  induction l with
  | nil => simp [jsHas] at h
  | cons p rest ih =>
    obtain ⟨k1, v1⟩ := p
    by_cases hk : k1 = k
    · simp [jsDelete, hk]
    · simp only [jsHas, jsGetOpt_cons, hk, if_false] at h
      simp [jsDelete, hk, ih h]

theorem jsHas_false_forall (l : List (String × JValue)) (k : String)
    (h : jsHas l k = false) : ∀ p ∈ l, p.1 ≠ k := by
  induction l with
  | nil => intro p hp; simp at hp
  | cons q rest ih =>
    obtain ⟨k1, v1⟩ := q
    simp only [jsHas, jsGetOpt_cons] at h
    by_cases hk : k1 = k
    · simp [hk] at h
    · intro p hp
      rcases List.mem_cons.mp hp with hEq | hMem
      · simp [hEq, hk]
      · exact ih (by simpa [jsHas, hk] using h) p hMem

theorem jsMap_set_id (l : List (String × JValue)) (k : String) (v : JValue)
    (h : ∀ p ∈ l, p.1 ≠ k) :
    l.map (updEntry k v) = l := by
  induction l with
  | nil => rfl
  | cons q rest ih =>
    have hq : q.1 ≠ k := h q (List.mem_cons_self _ _)
    rw [List.map_cons, updEntry_other k v q hq,
      ih (fun p hp => h p (List.mem_cons_of_mem _ hp))]

theorem jsSet_set_same (l : List (String × JValue)) (k : String) (v w : JValue) :
    jsSet (jsSet l k v) k w = jsSet l k w := by
  by_cases h : jsHas l k
  · have hs : jsHas (jsSet l k v) k = true := jsHas_set_self l k v
    simp only [jsSet, h, if_true] at hs ⊢
    simp only [hs, if_true, List.map_map]
    apply List.map_congr_left
    intro p _
    by_cases hp : p.1 = k <;> simp [Function.comp, updEntry, hp]
  · have hfalse : jsHas l k = false := by simpa using h
    have hs : jsHas (l ++ [(k, v)]) k = true := by
      simp [jsHas, jsGetOpt_append_absent l k v hfalse]
    simp only [jsSet, hfalse, Bool.false_eq_true, if_false]
    rw [if_pos hs]
    rw [List.map_append, jsMap_set_id l k w (jsHas_false_forall l k hfalse)]
    simp [updEntry]

theorem jsHas_eq_any (l : List (String × JValue)) (k : String) :
    jsHas l k = l.any (fun p => p.1 == k) := by
  induction l with
  | nil => rfl
  | cons q rest ih =>
    obtain ⟨k1, v1⟩ := q
    by_cases hk : k1 = k
    · simp [jsHas, hk]
    · have hb : (k1 == k) = false := by simpa using hk
      simp only [jsHas, jsGetOpt_cons, hk, if_false, List.any_cons]
      simp only [jsHas] at ih
      rw [ih, hb]
      simp

theorem keysUnique_cons_parts (k : String) (v : JValue)
    (rest : List (String × JValue)) (hu : keysUnique ((k, v) :: rest) = true) :
    jsHas rest k = false ∧ keysUnique rest = true := by
  simp only [keysUnique, Bool.and_eq_true, Bool.not_eq_true] at hu
  exact ⟨by rw [jsHas_eq_any]; simpa using hu.1, hu.2⟩

theorem jsSet_get_self (l : List (String × JValue)) (k : String)
    (hu : keysUnique l = true) (h : jsHas l k = true) :
    jsSet l k (jsGet l k) = l := by
  induction l with
  | nil => simp [jsHas] at h
  | cons q rest ih =>
    obtain ⟨k1, v1⟩ := q
    obtain ⟨hnok1, hurest⟩ := keysUnique_cons_parts k1 v1 rest hu
    by_cases hk : k1 = k
    · subst hk
      have hget : jsGet ((k1, v1) :: rest) k1 = v1 := by simp [jsGet]
      have hhas : jsHas ((k1, v1) :: rest) k1 = true := by simp [jsHas]
      simp only [jsSet, hhas, if_true, hget, List.map_cons, updEntry_self]
      rw [jsMap_set_id rest k1 v1 (jsHas_false_forall rest k1 hnok1)]
    · simp only [jsHas, jsGetOpt_cons, hk, if_false] at h
      have hhasrest : jsHas rest k = true := h
      have hget : jsGet ((k1, v1) :: rest) k = jsGet rest k := by
        simp [jsGet, hk]
      have hhas : jsHas ((k1, v1) :: rest) k = true := by
        simp only [jsHas, jsGetOpt_cons, hk, if_false]
        exact hhasrest
      simp only [jsSet, hhas, if_true, hget, List.map_cons]
      rw [updEntry_other k (jsGet rest k) (k1, v1) hk]
      have hrec := ih hurest hhasrest
      simp only [jsSet, hhasrest, if_true] at hrec
      rw [hrec]

theorem jsDelete_map_comm (l : List (String × JValue)) (k j : String) (v : JValue)
    (hne : j ≠ k) :
    jsDelete (l.map (updEntry j v)) k = (jsDelete l k).map (updEntry j v) := by
  induction l with
  | nil => rfl
  | cons q rest ih =>
    obtain ⟨k1, v1⟩ := q
    by_cases hj : k1 = j
    · subst hj
      rw [List.map_cons, updEntry_self]
      have hk1 : ¬(k1 = k) := fun hc => hne hc
      simp only [jsDelete, hk1, if_false, List.map_cons, updEntry_self, ih]
    · rw [List.map_cons, updEntry_other j v (k1, v1) hj]
      by_cases hk1 : k1 = k
      · simp only [jsDelete, hk1, if_true]
      · simp only [jsDelete, hk1, if_false, List.map_cons,
          updEntry_other j v (k1, v1) hj, ih]

theorem jsSet_delete_comm (l : List (String × JValue)) (k j : String) (v : JValue)
    (hne : j ≠ k) (hk : jsHas l k = true) :
    jsDelete (jsSet l j v) k = jsSet (jsDelete l k) j v := by
  by_cases hj : jsHas l j
  · have hjd : jsHas (jsDelete l k) j = true := by
      rw [jsHas_delete_ne l k j (fun hc => hne hc.symm)]; exact hj
    simp only [jsSet, hj, if_true, hjd]
    exact jsDelete_map_comm l k j v hne
  · have hjf : jsHas l j = false := by simpa using hj
    have hjd : jsHas (jsDelete l k) j = false := by
      rw [jsHas_delete_ne l k j (fun hc => hne hc.symm)]; exact hjf
    simp only [jsSet, hjf, Bool.false_eq_true, if_false, hjd]
    rw [jsDelete_append_present l [(j, v)] k hk]

theorem jsSet_set_comm (l : List (String × JValue)) (k j : String) (v w : JValue)
    (hne : k ≠ j) (hk : jsHas l k = true) :
    jsSet (jsSet l k v) j w = jsSet (jsSet l j w) k v := by
  have e1 : jsSet l k v = l.map (updEntry k v) := by
    simp only [jsSet, hk, if_true]
  by_cases hj : jsHas l j
  · have e2 : jsSet l j w = l.map (updEntry j w) := by
      simp only [jsSet, hj, if_true]
    have h1 : jsHas (l.map (updEntry k v)) j = true := by
      rw [← e1, jsHas_set_ne l k j v hne]; exact hj
    have h2 : jsHas (l.map (updEntry j w)) k = true := by
      rw [← e2, jsHas_set_ne l j k w (fun hc => hne hc.symm)]; exact hk
    rw [e1, e2]
    rw [show jsSet (l.map (updEntry k v)) j w = (l.map (updEntry k v)).map (updEntry j w) from by
      simp only [jsSet, h1, if_true]]
    rw [show jsSet (l.map (updEntry j w)) k v = (l.map (updEntry j w)).map (updEntry k v) from by
      simp only [jsSet, h2, if_true]]
    rw [List.map_map, List.map_map]
    apply List.map_congr_left
    intro p _
    have hjk : j ≠ k := Ne.symm hne
    by_cases hpk : p.1 = k
    · have hpj : ¬(p.1 = j) := fun hc => hne (hpk ▸ hc)
      simp [Function.comp, updEntry, hpk, hpj, hne]
    · by_cases hpj : p.1 = j
      · simp [Function.comp, updEntry, hpk, hpj, hjk]
      · simp [Function.comp, updEntry, hpk, hpj]
  · have hjf : jsHas l j = false := by simpa using hj
    have e2 : jsSet l j w = l ++ [(j, w)] := by
      simp only [jsSet, hjf, Bool.false_eq_true, if_false]
    have h1 : jsHas (l.map (updEntry k v)) j = false := by
      rw [← e1, jsHas_set_ne l k j v hne]; exact hjf
    have h2 : jsHas (l ++ [(j, w)]) k = true := by
      rw [← e2, jsHas_set_ne l j k w (fun hc => hne hc.symm)]; exact hk
    rw [e1, e2]
    rw [show jsSet (l.map (updEntry k v)) j w = l.map (updEntry k v) ++ [(j, w)] from by
      simp only [jsSet, h1, Bool.false_eq_true, if_false]]
    rw [show jsSet (l ++ [(j, w)]) k v = (l ++ [(j, w)]).map (updEntry k v) from by
      simp only [jsSet, h2, if_true]]
    rw [List.map_append, List.map_cons, List.map_nil]
    rw [updEntry_other k v (j, w) (fun hc => hne hc.symm)]

theorem jsGetOpt_mergeEntries_not_mem (os : List (String × JValue)) :
    ∀ bs k, (os.any (fun p => p.1 == k)) = false →
    jsGetOpt (mergeEntries bs os) k = jsGetOpt bs k := by
  induction os with
  | nil => intro bs k _; simp [mergeEntries]
  | cons q rest ih =>
    intro bs k h
    obtain ⟨key, v⟩ := q
    simp only [List.any_cons, Bool.or_eq_false_iff] at h
    have hne : key ≠ k := by simpa using h.1
    simp only [mergeEntries]
    rw [ih _ k h.2, jsGetOpt_set_ne bs key k _ hne]

theorem jsHas_mergeEntries_mono (os : List (String × JValue)) :
    ∀ bs k, jsHas bs k = true → jsHas (mergeEntries bs os) k = true := by
  induction os with
  | nil => intro bs k h; simpa [mergeEntries] using h
  | cons q rest ih =>
    intro bs k h
    obtain ⟨key, v⟩ := q
    simp only [mergeEntries]
    apply ih
    by_cases hk : key = k
    · subst hk; exact jsHas_set_self bs key _
    · rw [jsHas_set_ne bs key k _ hk]; exact h

theorem mergeEntries_set_comm (os : List (String × JValue)) :
    ∀ bs k w, jsHas bs k = true → (os.any (fun p => p.1 == k)) = false →
    mergeEntries (jsSet bs k w) os = jsSet (mergeEntries bs os) k w := by
  induction os with
  | nil => intro bs k w _ _; simp [mergeEntries]
  | cons q rest ih =>
    intro bs k w hk hnm
    obtain ⟨key, v⟩ := q
    simp only [List.any_cons, Bool.or_eq_false_iff] at hnm
    have hne : key ≠ k := by simpa using hnm.1
    simp only [mergeEntries]
    have hget : jsGet (jsSet bs k w) key = jsGet bs key := by
      simp [jsGet, jsGetOpt_set_ne bs k key w (fun hc => hne hc.symm)]
    rw [hget]
    rw [jsSet_set_comm bs k key w _ (fun hc => hne hc.symm) hk]
    exact ih _ k w (by rw [jsHas_set_ne bs key k _ hne]; exact hk) hnm.2

theorem mergeEntries_delete_comm (os : List (String × JValue)) :
    ∀ bs k, jsHas bs k = true → (os.any (fun p => p.1 == k)) = false →
    mergeEntries (jsDelete bs k) os = jsDelete (mergeEntries bs os) k := by
  induction os with
  | nil => intro bs k _ _; simp [mergeEntries]
  | cons q rest ih =>
    intro bs k hk hnm
    obtain ⟨key, v⟩ := q
    simp only [List.any_cons, Bool.or_eq_false_iff] at hnm
    have hne : key ≠ k := by simpa using hnm.1
    simp only [mergeEntries]
    have hget : jsGet (jsDelete bs k) key = jsGet bs key := by
      simp [jsGet, jsGetOpt_delete_ne bs k key (fun hc => hne hc.symm)]
    rw [hget]
    rw [← jsSet_delete_comm bs k key _ hne hk]
    exact ih _ k (by rw [jsHas_set_ne bs key k _ hne]; exact hk) hnm.2

theorem jsGetOpt_mem_unique (l : List (String × JValue)) (k : String) (w : JValue)
    (hu : keysUnique l = true) (hmem : (k, w) ∈ l) : jsGetOpt l k = some w := by
  induction l with
  | nil => simp at hmem
  | cons q rest ih =>
    obtain ⟨k1, v1⟩ := q
    obtain ⟨hno, hur⟩ := keysUnique_cons_parts k1 v1 rest hu
    rcases List.mem_cons.mp hmem with hEq | hMem
    · cases hEq
      simp
    · have hk1 : k1 ≠ k := by
        intro hc
        subst hc
        have hh : jsHas rest k1 = true := by
          rw [jsHas_eq_any]
          exact List.any_eq_true.mpr ⟨(k1, w), hMem, by simp⟩
        rw [hno] at hh
        exact absurd hh (by simp)
      simp only [jsGetOpt_cons, hk1, if_false]
      exact ih hur hMem

theorem wfj_getOpt (bs : List (String × JValue)) (k : String) (bv : JValue)
    (hw : wfFields bs = true) (h : jsGetOpt bs k = some bv) : wfj bv = true := by
  induction bs with
  | nil => simp at h
  | cons q rest ih =>
    obtain ⟨k1, v1⟩ := q
    have hw2 : wfj v1 = true ∧ wfFields rest = true := by
      simpa [wfFields, Bool.and_eq_true] using hw
    by_cases hk : k1 = k
    · simp only [jsGetOpt_cons, hk, if_true, Option.some.injEq] at h
      exact h ▸ hw2.1
    · simp only [jsGetOpt_cons, hk, if_false] at h
      exact ih hw2.2 h

theorem sizeOf_list_pos (l : List (String × JValue)) : 1 ≤ sizeOf l := by
  cases l <;> simp_arith

/-- Removing, in turn, every key listed in `os` from `acc`. -/
def deleteKeys (acc : List (String × JValue)) (os : List (String × JValue)) :
    List (String × JValue) :=
  os.foldl (fun a p => jsDelete a p.1) acc

theorem deleteKeys_self (os : List (String × JValue)) (hu : keysUnique os = true) :
    deleteKeys os os = [] := by
  induction os with
  | nil => rfl
  | cons q rest ih =>
    obtain ⟨k, v⟩ := q
    obtain ⟨_, hur⟩ := keysUnique_cons_parts k v rest hu
    simp only [deleteKeys, List.foldl_cons]
    rw [show jsDelete ((k, v) :: rest) k = rest from by simp [jsDelete]]
    exact ih hur

theorem stripEntries_null (n : Nat) :
    ∀ os acc : List (String × JValue), sizeOf os ≤ n →
    keysUnique os = true → wfFields os = true →
    (∀ k w, (k, w) ∈ os → jsGetOpt acc k = some w) →
    stripEntries acc os .null = deleteKeys acc os := by
  induction n with
  | zero =>
    intro os acc hsz _ _ _
    exact absurd hsz (by have := sizeOf_list_pos os; omega)
  | succ n ih =>
    intro os acc hsz hu hwf hget
    cases os with
    | nil => simp [stripEntries, deleteKeys]
    | cons q rest =>
      obtain ⟨key, v⟩ := q
      obtain ⟨hno, hur⟩ := keysUnique_cons_parts key v rest hu
      have hwf2 : wfj v = true ∧ wfFields rest = true := by
        simpa [wfFields, Bool.and_eq_true] using hwf
      have hsrest : sizeOf rest ≤ n := by
        simp only [List.cons.sizeOf_spec, Prod.mk.sizeOf_spec] at hsz
        omega
      have hgetacc : jsGetOpt acc key = some v := hget key v (List.mem_cons_self _ _)
      have hjsget : jsGet acc key = v := by simp [jsGet, hgetacc]
      simp only [stripEntries]
      have hstep : stripStep acc key v .null
          (stripOverrides (jsGet acc key) v (stripNextBase .null key)) =
          jsDelete acc key := by
        cases v with
        | obj vf =>
          have hwv : keysUnique vf = true ∧ wfFields vf = true := by
            simpa [wfj, Bool.and_eq_true] using hwf2.1
          have hsvf : sizeOf vf ≤ n := by
            simp only [List.cons.sizeOf_spec, Prod.mk.sizeOf_spec,
              JValue.obj.sizeOf_spec] at hsz
            omega
          have hse : stripEntries vf vf .null = deleteKeys vf vf :=
            ih vf vf hsvf hwv.1 hwv.2
              (fun k w hm => jsGetOpt_mem_unique vf k w hwv.1 hm)
          have hso : stripOverrides (.obj vf) (.obj vf) .null = .obj [] := by
            simp only [stripOverrides]
            rw [hse, deleteKeys_self vf hwv.1]
          rw [hjsget, show stripNextBase JValue.null key = JValue.null from rfl, hso]
          simp [stripStep, baseValueOf, hjsget, isObjB, objEmpty, truthy]
        | undef => simp [stripStep, baseValueOf, isObjB, isUndef]
        | null => simp [stripStep, baseValueOf, isObjB, isUndef]
        | bool b => simp [stripStep, baseValueOf, isObjB, isUndef]
        | num m => simp [stripStep, baseValueOf, isObjB, isUndef]
        | str s => simp [stripStep, baseValueOf, isObjB, isUndef]
        | arr elems => simp [stripStep, baseValueOf, isObjB, isUndef]
      rw [hstep]
      have hkne : ∀ k w, (k, w) ∈ rest → key ≠ k := by
        intro k w hm hc
        subst hc
        have hh : jsHas rest key = true := by
          rw [jsHas_eq_any]
          exact List.any_eq_true.mpr ⟨(key, w), hm, by simp⟩
        rw [hno] at hh
        exact absurd hh (by simp)
      have hrec := ih rest (jsDelete acc key) hsrest hur hwf2.2
        (fun k w hm => by
          rw [jsGetOpt_delete_ne acc key k (hkne k w hm)]
          exact hget k w (List.mem_cons_of_mem _ hm))
      rw [hrec]
      simp [deleteKeys]

theorem stripOverrides_self_null (vf : List (String × JValue))
    (hu : keysUnique vf = true) (hw : wfFields vf = true) :
    stripOverrides (.obj vf) (.obj vf) .null = .obj [] := by
  simp only [stripOverrides]
  rw [stripEntries_null (sizeOf vf) vf vf (le_refl _) hu hw
    (fun k w hm => jsGetOpt_mem_unique vf k w hu hm)]
  rw [deleteKeys_self vf hu]

theorem compatB_cons_tail (bs : List (String × JValue)) (key : String) (v : JValue)
    (rest : List (String × JValue)) (hc : compatB bs ((key, v) :: rest) = true) :
    compatB bs rest = true := by
  unfold compatB at hc
  simp only [Bool.and_eq_true] at hc
  exact hc.2

theorem compatB_head_obj (bs : List (String × JValue)) (key : String)
    (ovf rest : List (String × JValue)) (bv : JValue)
    (hc : compatB bs ((key, .obj ovf) :: rest) = true)
    (hbv : jsGetOpt bs key = some bv) :
    ∃ bvf, bv = .obj bvf ∧ compatB bvf ovf = true := by
  unfold compatB at hc
  simp only [Bool.and_eq_true] at hc
  have h1 := hc.1
  rw [hbv] at h1
  cases bv with
  | obj bvf => exact ⟨bvf, rfl, by simpa using h1⟩
  | undef => simp at h1
  | null => simp at h1
  | bool b => simp at h1
  | num m => simp at h1
  | str s => simp at h1
  | arr elems => simp at h1

theorem compatB_head_nonobj (bs : List (String × JValue)) (key : String)
    (v : JValue) (rest : List (String × JValue)) (bv : JValue)
    (hvno : isObjB v = false)
    (hc : compatB bs ((key, v) :: rest) = true)
    (hbv : jsGetOpt bs key = some bv) :
    isUndef bv = false := by
  unfold compatB at hc
  simp only [Bool.and_eq_true] at hc
  have h1 := hc.1
  rw [hbv] at h1
  cases v with
  | obj ovf => simp [isObjB] at hvno
  | undef => simpa using h1
  | null => simpa using h1
  | bool b => simpa using h1
  | num m => simpa using h1
  | str s => simpa using h1
  | arr elems => simpa using h1

theorem rt_entries (n : Nat) :
    ∀ os bs : List (String × JValue), sizeOf os ≤ n →
    keysUnique bs = true → wfFields bs = true →
    keysUnique os = true → wfFields os = true →
    compatB bs os = true →
    stripEntries (mergeEntries bs os) os (.obj bs) = bs := by
  induction n with
  | zero =>
    intro os bs hsz _ _ _ _ _
    exact absurd hsz (by have := sizeOf_list_pos os; omega)
  | succ n ih =>
    intro os bs hsz hub hwb huo hwo hc
    cases os with
    | nil => simp [mergeEntries, stripEntries]
    | cons q rest =>
      obtain ⟨key, v⟩ := q
      obtain ⟨hnok, hur⟩ := keysUnique_cons_parts key v rest huo
      have hwv2 : wfj v = true ∧ wfFields rest = true := by
        simpa [wfFields, Bool.and_eq_true] using hwo
      have hsrest : sizeOf rest ≤ n := by
        simp only [List.cons.sizeOf_spec, Prod.mk.sizeOf_spec] at hsz
        omega
      have hany : (rest.any fun p => p.1 == key) = false := by
        rw [← jsHas_eq_any]; exact hnok
      have hctail : compatB bs rest = true := compatB_cons_tail bs key v rest hc
      rcases hbv : jsGetOpt bs key with _ | bv
      · -- the base lacks the key entirely
        have hbsget : jsGet bs key = .undef := by simp [jsGet, hbv]
        have hhasF : jsHas bs key = false := by simp [jsHas, hbv]
        have hnewV : (if isObjB v && isObjB (jsGet bs key) then
            deepMerge (jsGet bs key) v else v) = v := by
          rw [hbsget]; simp [isObjB]
        simp only [mergeEntries, stripEntries, hnewV]
        have hM : jsGetOpt (mergeEntries (jsSet bs key v) rest) key = some v := by
          rw [jsGetOpt_mergeEntries_not_mem rest (jsSet bs key v) key hany]
          exact jsGetOpt_set_self bs key v
        have hMget : jsGet (mergeEntries (jsSet bs key v) rest) key = v := by
          simp [jsGet, hM]
        have hnext : stripNextBase (.obj bs) key = .null := by
          simp [stripNextBase, baseValueOf, hbsget, isObjB]
        have hdel : jsDelete (mergeEntries (jsSet bs key v) rest) key =
            mergeEntries bs rest := by
          rw [← mergeEntries_delete_comm rest (jsSet bs key v) key
            (jsHas_set_self bs key v) hany]
          congr 1
          rw [show jsSet bs key v = bs ++ [(key, v)] from by
            simp [jsSet, hhasF]]
          exact jsDelete_append_absent bs key v hhasF
        rw [hMget, hnext]
        by_cases hvo : isObjB v = true
        · cases v with
          | obj vf =>
            have hwvf : keysUnique vf = true ∧ wfFields vf = true := by
              simpa [wfj, Bool.and_eq_true] using hwv2.1
            rw [stripOverrides_self_null vf hwvf.1 hwvf.2]
            simp only [stripStep, baseValueOf, hbsget, hMget, isObjB, objEmpty,
              truthy, Bool.and_true, Bool.and_self, Bool.not_false, if_true]
            rw [hdel]
            exact ih rest bs hsrest hub hwb hur hwv2.2 hctail
          | undef => simp [isObjB] at hvo
          | null => simp [isObjB] at hvo
          | bool b => simp [isObjB] at hvo
          | num m => simp [isObjB] at hvo
          | str s => simp [isObjB] at hvo
          | arr elems => simp [isObjB] at hvo
        · have hvno : isObjB v = false := by simpa using hvo
          simp only [stripStep, baseValueOf, hbsget, hMget, hvno, isUndef,
            Bool.false_and, Bool.false_eq_true, if_false, if_true]
          rw [hdel]
          exact ih rest bs hsrest hub hwb hur hwv2.2 hctail
      · -- the base defines the key
        have hbsget : jsGet bs key = bv := by simp [jsGet, hbv]
        have hhasT : jsHas bs key = true := by simp [jsHas, hbv]
        by_cases hvo : isObjB v = true
        · cases v with
          | obj ovf =>
            obtain ⟨bvf, hbvf, hcc⟩ := compatB_head_obj bs key ovf rest bv hc hbv
            subst hbvf
            have hwbv : wfj (.obj bvf) = true := wfj_getOpt bs key _ hwb hbv
            have hwbv2 : keysUnique bvf = true ∧ wfFields bvf = true := by
              simpa [wfj, Bool.and_eq_true] using hwbv
            have hwov2 : keysUnique ovf = true ∧ wfFields ovf = true := by
              simpa [wfj, Bool.and_eq_true] using hwv2.1
            have hsovf : sizeOf ovf ≤ n := by
              simp only [List.cons.sizeOf_spec, Prod.mk.sizeOf_spec,
                JValue.obj.sizeOf_spec] at hsz
              omega
            have hnewV : (if isObjB (.obj ovf) && isObjB (jsGet bs key) then
                deepMerge (jsGet bs key) (.obj ovf) else (.obj ovf)) =
                .obj (mergeEntries bvf ovf) := by
              rw [hbsget]
              simp [isObjB, deepMerge]
            simp only [mergeEntries, stripEntries, hnewV]
            have hM : jsGetOpt
                (mergeEntries (jsSet bs key (.obj (mergeEntries bvf ovf))) rest)
                key = some (.obj (mergeEntries bvf ovf)) := by
              rw [jsGetOpt_mergeEntries_not_mem rest _ key hany]
              exact jsGetOpt_set_self bs key _
            have hMget : jsGet
                (mergeEntries (jsSet bs key (.obj (mergeEntries bvf ovf))) rest)
                key = .obj (mergeEntries bvf ovf) := by
              simp [jsGet, hM]
            have hnext : stripNextBase (.obj bs) key = .obj bvf := by
              simp [stripNextBase, baseValueOf, hbsget, isObjB]
            have hstripped : stripOverrides (.obj (mergeEntries bvf ovf))
                (.obj ovf) (.obj bvf) = .obj bvf := by
              simp only [stripOverrides]
              rw [ih ovf bvf hsovf hwbv2.1 hwbv2.2 hwov2.1 hwov2.2 hcc]
            have hset : jsSet
                (mergeEntries (jsSet bs key (.obj (mergeEntries bvf ovf))) rest)
                key (.obj bvf) = mergeEntries bs rest := by
              rw [← mergeEntries_set_comm rest (jsSet bs key _) key (.obj bvf)
                (jsHas_set_self bs key _) hany]
              congr 1
              rw [jsSet_set_same]
              rw [show (JValue.obj bvf) = jsGet bs key from hbsget.symm]
              exact jsSet_get_self bs key hub hhasT
            rw [hMget, hnext, hstripped]
            simp only [stripStep, baseValueOf, hbsget, hMget, isObjB, truthy,
              Bool.and_self, Bool.not_true, Bool.and_false, Bool.false_eq_true,
              if_false, if_true]
            rw [hset]
            exact ih rest bs hsrest hub hwb hur hwv2.2 hctail
          | undef => simp [isObjB] at hvo
          | null => simp [isObjB] at hvo
          | bool b => simp [isObjB] at hvo
          | num m => simp [isObjB] at hvo
          | str s => simp [isObjB] at hvo
          | arr elems => simp [isObjB] at hvo
        · have hvno : isObjB v = false := by simpa using hvo
          have hbvnu : isUndef bv = false :=
            compatB_head_nonobj bs key v rest bv hvno hc hbv
          have hnewV : (if isObjB v && isObjB (jsGet bs key) then
              deepMerge (jsGet bs key) v else v) = v := by
            rw [hvno]; simp
          simp only [mergeEntries, stripEntries, hnewV]
          have hset : jsSet (mergeEntries (jsSet bs key v) rest) key bv =
              mergeEntries bs rest := by
            rw [← mergeEntries_set_comm rest (jsSet bs key v) key bv
              (jsHas_set_self bs key v) hany]
            congr 1
            rw [jsSet_set_same]
            rw [show bv = jsGet bs key from hbsget.symm]
            exact jsSet_get_self bs key hub hhasT
          simp only [stripStep, baseValueOf, hbsget, hvno, hbvnu,
            Bool.false_and, Bool.false_eq_true, if_false]
          rw [hset]
          exact ih rest bs hsrest hub hwb hur hwv2.2 hctail

example : deepMerge (.obj [("a", .num 1), ("nested", .obj [("x", .num 1), ("y", .num 2)]), ("list", .arr [.num 1])])
    (.obj [("b", .num 2), ("nested", .obj [("y", .num 3)]), ("list", .arr [.num 2])]) =
    .obj [("a", .num 1), ("nested", .obj [("x", .num 1), ("y", .num 3)]), ("list", .arr [.num 2]), ("b", .num 2)] := by
  simp [deepMerge, mergeEntries, jsGet, jsGetOpt, jsSet, jsHas, isObjB, isUndef,
    updEntry]

example : stripOverrides
    (deepMerge (.obj [("a", .num 1)]) (.obj [("a", .obj [("x", .num 1)])]))
    (.obj [("a", .obj [("x", .num 1)])]) (.obj [("a", .num 1)]) =
    .obj [("a", .obj [])] := by
  simp [deepMerge, mergeEntries, stripOverrides, stripEntries, stripStep,
    stripNextBase, baseValueOf, jsGet, jsGetOpt, jsSet, jsHas, jsDelete,
    isObjB, isUndef, objEmpty, truthy, updEntry]

example : stripOverrides
    (deepMerge (.obj [("theme", .str "opencode")]) (.obj [("theme", .str "local"), ("editor", .str "vim")]))
    (.obj [("theme", .str "local"), ("editor", .str "vim")]) (.obj [("theme", .str "opencode")]) =
    .obj [("theme", .str "opencode")] := by
  simp [deepMerge, mergeEntries, stripOverrides, stripEntries, stripStep,
    stripNextBase, baseValueOf, jsGet, jsGetOpt, jsSet, jsHas, jsDelete,
    isObjB, isUndef, objEmpty, truthy, updEntry]

/-- Claim C1 counterexample: when an override replaces a non-object base
value with an object, the round trip does not restore the base. With
`base = {a: 1}` and `overrides = {a: {x: 1}}`, stripping the merged value
yields `{a: {}}`, not `{a: 1}`. -/
theorem stripOverrides_roundTrip_cex :
    stripOverrides
      (deepMerge (.obj [("a", .num 1)]) (.obj [("a", .obj [("x", .num 1)])]))
      (.obj [("a", .obj [("x", .num 1)])]) (.obj [("a", .num 1)]) =
      .obj [("a", .obj [])] ∧
    JValue.obj [("a", JValue.obj [])] ≠ JValue.obj [("a", JValue.num 1)] := by
  constructor
  · simp [deepMerge, mergeEntries, stripOverrides, stripEntries, stripStep,
      stripNextBase, baseValueOf, jsGet, jsGetOpt, jsSet, jsHas, jsDelete,
      isObjB, isUndef, objEmpty, truthy, updEntry]
  · simp

/-- Claim C1 (amended): the round-trip law
`stripOverrides (deepMerge base ov) ov base = base` holds for all
well-formed plain objects `base` and `ov` that are compatible: at every
nested key where the override holds a plain object, the base either lacks
the key or holds a plain object as well (and the base stores no explicit
`undefined` at an overridden key). In particular it holds when overrides
introduce keys absent from the base; it can fail only when an override
replaces a defined non-object base value with an object. -/
theorem stripOverrides_roundTrip_amended (bs os : List (String × JValue))
    (hwb : wfj (.obj bs) = true) (hwo : wfj (.obj os) = true)
    (hcompat : compatB bs os = true) :
    stripOverrides (deepMerge (.obj bs) (.obj os)) (.obj os) (.obj bs) =
      .obj bs := by
  have hb : keysUnique bs = true ∧ wfFields bs = true := by
    simpa [wfj, Bool.and_eq_true] using hwb
  have ho : keysUnique os = true ∧ wfFields os = true := by
    simpa [wfj, Bool.and_eq_true] using hwo
  rw [show deepMerge (.obj bs) (.obj os) = .obj (mergeEntries bs os) from by
    simp [deepMerge]]
  simp only [stripOverrides]
  rw [rt_entries (sizeOf os) os bs (le_refl _) hb.1 hb.2 ho.1 ho.2 hcompat]

/-- Witness for the amended round-trip law at a concrete base/override
pair (the base value from the repo test-suite scenario). -/
theorem stripOverrides_roundTrip_amended_witness :
    wfj (.obj [("theme", JValue.str "opencode"),
      ("provider", .obj [("openai", .obj [("apiKey", .str "base")])])]) = true ∧
    wfj (.obj [("provider", .obj [("openai", .obj [("apiKey", .str "local")])]),
      ("editor", JValue.str "vim")]) = true ∧
    compatB
      [("theme", JValue.str "opencode"),
        ("provider", .obj [("openai", .obj [("apiKey", .str "base")])])]
      [("provider", .obj [("openai", .obj [("apiKey", .str "local")])]),
        ("editor", JValue.str "vim")] = true ∧
    stripOverrides
      (deepMerge
        (.obj [("theme", JValue.str "opencode"),
          ("provider", .obj [("openai", .obj [("apiKey", .str "base")])])])
        (.obj [("provider", .obj [("openai", .obj [("apiKey", .str "local")])]),
          ("editor", JValue.str "vim")]))
      (.obj [("provider", .obj [("openai", .obj [("apiKey", .str "local")])]),
        ("editor", JValue.str "vim")])
      (.obj [("theme", JValue.str "opencode"),
        ("provider", .obj [("openai", .obj [("apiKey", .str "base")])])]) =
      .obj [("theme", JValue.str "opencode"),
        ("provider", .obj [("openai", .obj [("apiKey", .str "base")])])] :=
  ⟨by simp [wfj, wfFields, keysUnique],
   by simp [wfj, wfFields, keysUnique],
   by simp [compatB, jsGetOpt, isUndef],
   stripOverrides_roundTrip_amended _ _
     (by simp [wfj, wfFields, keysUnique])
     (by simp [wfj, wfFields, keysUnique])
     (by simp [compatB, jsGetOpt, isUndef])⟩

/-- The JavaScript `typeof` operator restricted to our value model
(`typeof null` is `"object"`, arrays are `"object"`). -/
def typeOfJ : JValue → String
  | .undef => "undefined"
  | .null => "object"
  | .bool _ => "boolean"
  | .num _ => "number"
  | .str _ => "string"
  | .arr _ => "object"
  | .obj _ => "object"

/-- JavaScript strict equality `===` on the values reachable here. Two
distinct object or array instances are never `===` in JS; the applier only
compares freshly parsed structures, so modelling `===` as primitive-only
equality is extensionally faithful (structurally equal objects fall through
to the deep walk, which returns true for them anyway). -/
def jsStrictEq : JValue → JValue → Bool
  | .undef, .undef => true
  | .null, .null => true
  | .bool a, .bool b => a == b
  | .num a, .num b => a == b
  | .str a, .str b => a == b
  | _, _ => false

/-- The `Object.keys` view used by `isDeepEqual`: object keys in insertion
order; array index strings for arrays; empty otherwise. -/
def jsKeys : JValue → List String
  | .obj fields => fields.map Prod.fst
  | .arr xs => (List.range xs.length).map (fun i => toString i)
  | _ => []

/-- Generic property read `value[key]` as used by the `isDeepEqual` object
walk: object lookup, or canonical array index access. -/
def jsGetProp : JValue → String → JValue
  | .obj fields, key => jsGet fields key
  | .arr xs, key =>
    match key.toNat? with
    | some i =>
      if toString i = key then
        (if h : i < xs.length then xs.get ⟨i, h⟩ else .undef)
      else .undef
    | none => .undef
  | _, _ => (.undef)

/-- The `Object.hasOwn` check of the `isDeepEqual` object walk. -/
def jsHasProp : JValue → String → Bool
  | .obj fields, key => jsHas fields key
  | .arr xs, key =>
    match key.toNat? with
    | some i => (toString i == key) && decide (i < xs.length)
    | none => false
  | _, _ => false

mutual

/-- Shallow embedding of `isDeepEqual` from the applier: strict equality
first, then `typeof` mismatch, then falsiness, then element-wise array
comparison, then the key-by-key object walk, else false. -/
def isDeepEqual : JValue → JValue → Bool
  | left, right =>
    if jsStrictEq left right then true
    else if typeOfJ left ≠ typeOfJ right then false
    else if !truthy left || !truthy right then false
    else
      match left, right with
      | .arr ls, .arr rs =>
        if ls.length ≠ rs.length then false else deepEqualList ls rs
      | .obj lf, r =>
        if (jsKeys (.obj lf)).length ≠ (jsKeys r).length then false
        else deepEqualFields lf r
      | .arr ls, r =>
        if (jsKeys (.arr ls)).length ≠ (jsKeys r).length then false
        else deepEqualArrFields ls 0 r
      | _, _ => false
termination_by l r => sizeOf l

/-- Element-wise array comparison of `isDeepEqual`. -/
def deepEqualList : List JValue → List JValue → Bool
  | [], [] => true
  | l :: ls, r :: rs => isDeepEqual l r && deepEqualList ls rs
  | _, _ => false
termination_by ls rs => sizeOf ls

/-- The `for (const key of leftKeys)` walk of `isDeepEqual` when the left
value is a plain object. -/
def deepEqualFields : List (String × JValue) → JValue → Bool
  | [], _ => true
  | (k, lv) :: rest, right =>
    (jsHasProp right k && isDeepEqual lv (jsGetProp right k)) &&
      deepEqualFields rest right
termination_by lf r => sizeOf lf

/-- The same walk when the left value is an array compared against a
non-array object-typed value (its keys are index strings). -/
def deepEqualArrFields : List JValue → Nat → JValue → Bool
  | [], _, _ => true
  | lv :: ls, i, right =>
    (jsHasProp right (toString i) && isDeepEqual lv (jsGetProp right (toString i))) &&
      deepEqualArrFields ls (i + 1) right
termination_by ls i r => sizeOf ls

end

example : isDeepEqual (.obj [("a", .num 1), ("b", .arr [.num 2, .str "x"])])
    (.obj [("b", .arr [.num 2, .str "x"]), ("a", .num 1)]) = true := by
  simp [isDeepEqual, deepEqualFields, deepEqualList, jsKeys, jsGetProp,
    jsHasProp, jsGet, jsGetOpt, jsHas, jsStrictEq, typeOfJ, truthy]

example : isDeepEqual (.obj [("a", .num 1)]) (.obj [("a", .num 2)]) = false := by
  simp [isDeepEqual, deepEqualFields, deepEqualList, jsKeys, jsGetProp,
    jsHasProp, jsGet, jsGetOpt, jsHas, jsStrictEq, typeOfJ, truthy]

/-- Whether an item is a file or a directory. -/
inductive SyncItemType where
  | file
  | dir
deriving Repr, DecidableEq

/-- One local/mirror path pair of a sync plan (SyncItem of paths.ts). -/
structure SyncItem where
  localPath : String
  repoPath : String
  type : SyncItemType
  isSecret : Bool
  isConfigFile : Bool
  isAuthToken : Bool
deriving Repr, DecidableEq

/-- Character-wise model of `String.startsWith` (the library version does
not reduce inside the kernel). -/
def strStartsWith (s pre : String) : Bool := pre.data.isPrefixOf s.data

/-- Character-wise model of `String.endsWith`. -/
def strEndsWith (s suf : String) : Bool := suf.data.isSuffixOf s.data

/-- The action `copyConfigForRepo` takes on the mirror-side file. -/
inductive CopyConfigAction where
  | removeRepo
  | skip
  | write (content : JValue) (jsonc : Bool) (mode : Nat)
deriving Repr

/-- Shallow embedding of `readRepoConfig` from the applier: the mirror base
config, or null when the repo path escapes the repo root or the file is
absent. Filesystem facts (existence, parsed content) enter as parameters. -/
def readRepoConfig (item : SyncItem) (repoRoot : String) (repoExists : Bool)
    (parsedRepo : JValue) : Option JValue :=
  if !(strStartsWith item.repoPath repoRoot) then none
  else if !repoExists then none
  else some parsedRepo

/-- Shallow embedding of `copyConfigForRepo` from the applier
(the version with the idempotence fast path and the optional sanitized
config). Filesystem reads are parameters; the returned action is what the
function does to the mirror-side file. -/
def copyConfigForRepo (item : SyncItem) (overrides : Option JValue)
    (repoRoot : String) (configOverride : Option JValue)
    (localExists : Bool) (parsedLocal : JValue)
    (repoExists : Bool) (parsedRepo : JValue) (localMode : Nat) :
    CopyConfigAction :=
  if !localExists then .removeRepo
  else
    let localConfig := configOverride.getD parsedLocal
    let baseConfig := readRepoConfig item repoRoot repoExists parsedRepo
    let effectiveOverrides := overrides.getD (.obj [])
    match baseConfig with
    | some b =>
      if isDeepEqual localConfig (deepMerge b effectiveOverrides) then .skip
      else
        .write (stripOverrides localConfig effectiveOverrides b)
          (strEndsWith item.localPath ".jsonc") localMode
    | none =>
      .write (stripOverrides localConfig effectiveOverrides .null)
        (strEndsWith item.localPath ".jsonc") localMode

/-- The mirror-side file content after the action (`none` = file absent). -/
def applyCopyConfigAction (action : CopyConfigAction) (oldRepo : Option JValue) :
    Option JValue :=
  match action with
  | .removeRepo => none
  | .skip => oldRepo
  | .write c _ _ => some c

/-- Claim C4: during local-to-mirror sync of a config-file item whose
mirror-side base exists (repo path inside the repo root, file present, no
sanitizing override), if the parsed local file deep-equals
`deepMerge base overrides` the write is skipped and the mirror content is
unchanged; otherwise the override-stripped content is written. -/
theorem copyConfigForRepo_idempotent_skip (item : SyncItem)
    (overrides : Option JValue) (repoRoot : String)
    (parsedLocal parsedRepo : JValue) (localMode : Nat)
    (hstart : strStartsWith item.repoPath repoRoot = true) :
    (isDeepEqual parsedLocal (deepMerge parsedRepo (overrides.getD (.obj []))) = true →
      copyConfigForRepo item overrides repoRoot none true parsedLocal true
        parsedRepo localMode = .skip ∧
      applyCopyConfigAction
        (copyConfigForRepo item overrides repoRoot none true parsedLocal true
          parsedRepo localMode) (some parsedRepo) = some parsedRepo) ∧
    (isDeepEqual parsedLocal (deepMerge parsedRepo (overrides.getD (.obj []))) = false →
      copyConfigForRepo item overrides repoRoot none true parsedLocal true
        parsedRepo localMode =
        .write (stripOverrides parsedLocal (overrides.getD (.obj [])) parsedRepo)
          (strEndsWith item.localPath ".jsonc") localMode) := by
  constructor
  · intro heq
    have hact : copyConfigForRepo item overrides repoRoot none true parsedLocal
        true parsedRepo localMode = .skip := by
      simp [copyConfigForRepo, readRepoConfig, hstart, heq]
    exact ⟨hact, by rw [hact]; rfl⟩
  · intro hne
    simp [copyConfigForRepo, readRepoConfig, hstart, hne]

/-- Witness for C4 at concrete values: base `{theme: "base"}`, override
`{theme: "local"}`, local `{theme: "local"}` hits the skip fast path. -/
theorem copyConfigForRepo_idempotent_skip_witness :
    strStartsWith (⟨"/home/u/.config/opencode/opencode.json",
      "/repo/config/opencode.json", SyncItemType.file, false, true, false⟩ :
        SyncItem).repoPath "/repo" = true ∧
    isDeepEqual (.obj [("theme", JValue.str "local")])
      (deepMerge (.obj [("theme", JValue.str "base")])
        ((some (JValue.obj [("theme", JValue.str "local")])).getD (.obj []))) = true ∧
    copyConfigForRepo
      ⟨"/home/u/.config/opencode/opencode.json", "/repo/config/opencode.json",
        SyncItemType.file, false, true, false⟩
      (some (.obj [("theme", JValue.str "local")])) "/repo" none true
      (.obj [("theme", JValue.str "local")]) true
      (.obj [("theme", JValue.str "base")]) 420 = .skip :=
  ⟨by decide,
   by simp [isDeepEqual, deepEqualFields, deepMerge, mergeEntries, jsKeys,
     jsGetProp, jsHasProp, jsGet, jsGetOpt, jsHas, jsSet, updEntry,
     jsStrictEq, typeOfJ, truthy, isObjB],
   ((copyConfigForRepo_idempotent_skip
      ⟨"/home/u/.config/opencode/opencode.json", "/repo/config/opencode.json",
        SyncItemType.file, false, true, false⟩
      (some (.obj [("theme", JValue.str "local")])) "/repo"
      (.obj [("theme", JValue.str "local")])
      (.obj [("theme", JValue.str "base")]) 420 (by decide)).1
    (by simp [isDeepEqual, deepEqualFields, deepMerge, mergeEntries, jsKeys,
      jsGetProp, jsHasProp, jsGet, jsGetOpt, jsHas, jsSet, updEntry,
      jsStrictEq, typeOfJ, truthy, isObjB])).1⟩

theorem mergeEntries_getOpt_char (os : List (String × JValue)) :
    ∀ bs key, keysUnique os = true →
    jsGetOpt (mergeEntries bs os) key =
      (match jsGetOpt os key with
       | none => jsGetOpt bs key
       | some v => some (if isObjB v && isObjB (jsGet bs key) then
           deepMerge (jsGet bs key) v else v)) := by
  induction os with
  | nil => intro bs key _; simp [mergeEntries]
  | cons q rest ih =>
    intro bs key hu
    obtain ⟨k1, v1⟩ := q
    obtain ⟨hno, hur⟩ := keysUnique_cons_parts k1 v1 rest hu
    simp only [mergeEntries]
    by_cases hk : k1 = key
    · subst hk
      have hany : (rest.any fun p => p.1 == k1) = false := by
        rw [← jsHas_eq_any]; exact hno
      rw [jsGetOpt_mergeEntries_not_mem rest _ k1 hany, jsGetOpt_set_self]
      simp
    · rw [ih _ key hur]
      have h1 : jsGetOpt ((k1, v1) :: rest) key = jsGetOpt rest key := by
        simp [hk]
      rw [h1]
      cases hrk : jsGetOpt rest key with
      | none =>
        simp only []
        exact jsGetOpt_set_ne bs k1 key _ hk
      | some v =>
        have h3 : jsGet (jsSet bs k1
            (if isObjB v1 && isObjB (jsGet bs k1) then
              deepMerge (jsGet bs k1) v1 else v1)) key = jsGet bs key := by
          simp [jsGet, jsGetOpt_set_ne bs k1 key _ hk]
        simp only [h3]

/-- Claim C3 counterexample: an override key explicitly set to `undefined`
does overwrite a defined base value at that key (only an entirely
`undefined` override argument leaves the base untouched). -/
theorem deepMerge_undef_overwrite_cex :
    deepMerge (.obj [("a", .num 1)]) (.obj [("a", .undef)]) =
      .obj [("a", .undef)] ∧
    JValue.obj [("a", JValue.undef)] ≠ JValue.obj [("a", JValue.num 1)] := by
  constructor
  · simp [deepMerge, mergeEntries, jsGet, jsGetOpt, jsSet, jsHas, updEntry,
      isObjB, isUndef]
  · simp

/-- Claim C3 (amended): `deepMerge` merges plain objects key-by-key
recursively — the merged value at a key is the override value, merged
recursively when both sides hold plain objects there — so arrays and
scalars at a key are replaced wholesale; an entirely-`undefined` override
argument leaves the base value, but a key explicitly set to `undefined` in
the override does overwrite the base value at that key. -/
theorem deepMerge_merge_semantics (bs os : List (String × JValue))
    (key : String) (hu : keysUnique os = true) :
    (jsGetOpt (mergeEntries bs os) key =
      (match jsGetOpt os key with
       | none => jsGetOpt bs key
       | some v => some (if isObjB v && isObjB (jsGet bs key) then
           deepMerge (jsGet bs key) v else v))) ∧
    (∀ xs, jsGetOpt os key = some (.arr xs) →
      jsGetOpt (mergeEntries bs os) key = some (.arr xs)) ∧
    (∀ b : JValue, deepMerge b .undef = b) ∧
    (jsGetOpt os key = some .undef →
      jsGetOpt (mergeEntries bs os) key = some .undef) := by
  refine ⟨mergeEntries_getOpt_char os bs key hu, ?_, ?_, ?_⟩
  · intro xs hx
    rw [mergeEntries_getOpt_char os bs key hu, hx]
    simp [isObjB]
  · intro b
    cases b <;> simp [deepMerge, isUndef]
  · intro hx
    rw [mergeEntries_getOpt_char os bs key hu, hx]
    simp [isObjB]

/-- Witness for the merge semantics at a concrete object pair: the nested
object merges recursively, the array is replaced wholesale. -/
theorem deepMerge_merge_semantics_witness :
    keysUnique [("nested", JValue.obj [("y", JValue.num 3)]),
      ("list", JValue.arr [JValue.num 2])] = true ∧
    jsGetOpt (mergeEntries
      [("a", JValue.num 1), ("nested", .obj [("x", .num 1), ("y", .num 2)]),
        ("list", .arr [.num 1])]
      [("nested", JValue.obj [("y", JValue.num 3)]),
        ("list", JValue.arr [JValue.num 2])]) "list" =
      some (.arr [.num 2]) :=
  ⟨by simp [keysUnique],
   (deepMerge_merge_semantics
      [("a", JValue.num 1), ("nested", .obj [("x", .num 1), ("y", .num 2)]),
        ("list", .arr [.num 1])]
      [("nested", JValue.obj [("y", JValue.num 3)]),
        ("list", JValue.arr [JValue.num 2])]
      "list" (by simp [keysUnique])).2.1 [JValue.num 2] (by simp [jsGetOpt])⟩

/-- The platform tag (NodeJS.Platform restricted to the values the code
distinguishes). -/
inductive Platform where
  | linux
  | darwin
  | win32
deriving Repr, DecidableEq

/-- Whether a POSIX path string is absolute. -/
def isAbsolute (s : String) : Bool :=
  match s.data with
  | [] => false
  | c :: _ => c = '/'

/-- Splits a character list on every `/` (like `String.splitOn "/"`,
written over characters so that it reduces and composes). -/
def splitSegsAux : List Char → List Char → List (List Char)
  | [], cur => [cur.reverse]
  | c :: rest, cur =>
    if c = '/' then cur.reverse :: splitSegsAux rest []
    else splitSegsAux rest (c :: cur)

/-- The `/`-separated segments of a path string. -/
def splitSegs (s : String) : List (List Char) := splitSegsAux s.data []

/-- One step of POSIX path normalization: empty and `.` segments are
dropped, `..` pops a normal segment (kept for relative paths with nothing
to pop, dropped for absolute ones), anything else is pushed. The stack is
kept reversed. -/
def normSegsStep (abs : Bool) (stack : List (List Char)) (seg : List Char) :
    List (List Char) :=
  if seg = [] ∨ seg = ['.'] then stack
  else if seg = ['.', '.'] then
    match stack with
    | [] => if abs then [] else [['.', '.']]
    | top :: rest => if top = ['.', '.'] then ['.', '.'] :: stack else rest
  else seg :: stack

/-- POSIX path normalization on segments (the dot-collapsing core of
node's `path.normalize`). -/
def normSegs (abs : Bool) (segs : List (List Char)) : List (List Char) :=
  (segs.foldl (normSegsStep abs) []).reverse

/-- Joins segments with `/` separators. -/
def joinSegs : List (List Char) → List Char
  | [] => []
  | [s] => s
  | s :: rest => s ++ '/' :: joinSegs rest

/-- Renders normalized segments back to a path string (node returns `.`
for an empty relative result and `/` for an empty absolute one). -/
def renderPath (abs : Bool) (segs : List (List Char)) : String :=
  if abs then String.mk ('/' :: joinSegs segs)
  else if segs = [] then "." else String.mk (joinSegs segs)

/-- Model of node's `path.normalize` for POSIX paths. Trailing-separator
preservation is not modelled: every path joined or normalized by this code
ends in a fixed separator-free file or directory name. -/
def normalizePosix (s : String) : String :=
  renderPath (isAbsolute s) (normSegs (isAbsolute s) (splitSegs s))

/-- Model of node's `path.join` for the two-argument calls the code makes:
empty parts are skipped, the parts are joined with `/` and normalized. -/
def pathJoin (a b : String) : String :=
  if a = "" ∧ b = "" then "."
  else if a = "" then normalizePosix b
  else if b = "" then normalizePosix a
  else normalizePosix (a ++ "/" ++ b)

/-- Model of node's `path.resolve(...ps)` against an absolute working
directory `cwd`: the rightmost absolute part wins, relative parts are
appended, and the result is normalized as an absolute path. -/
def resolveChain (cwd : String) (ps : List String) : String :=
  let combined := (cwd :: ps).foldl
    (fun acc p =>
      if p = "" then acc
      else if isAbsolute p then p
      else acc ++ "/" ++ p) ""
  renderPath true (normSegs true (splitSegs combined))

example : pathJoin "/home/test/.local/share" "opencode" =
    "/home/test/.local/share/opencode" := by decide
example : pathJoin "/a/b/.." "c" = "/a/c" := by decide
example : resolveChain "/cwd" ["/x/../y/z"] = "/y/z" := by decide
example : resolveChain "/cwd" ["a/b"] = "/cwd/a/b" := by decide

/-- The final `/`-separated segment of a path string (the basename). -/
def lastSegChars (s : String) : List Char :=
  s.data.foldl (fun acc c => if c = '/' then [] else acc ++ [c]) []

/-- A list of characters with no separator. -/
def noSlash (l : List Char) : Bool := l.all (fun c => c ≠ '/')

/-- A plain path segment: nonempty, not a dot segment, separator-free. -/
def normalSeg (t : List Char) : Bool :=
  (t ≠ []) && (t ≠ ['.']) && (t ≠ ['.', '.']) && noSlash t

theorem lastSegAux_noSlash (w : List Char) (acc : List Char)
    (h : noSlash w = true) :
    w.foldl (fun acc c => if c = '/' then [] else acc ++ [c]) acc = acc ++ w := by
  induction w generalizing acc with
  | nil => simp
  | cons c rest ih =>
    simp only [noSlash, List.all_cons, Bool.and_eq_true] at h
    have hc : ¬(c = '/') := by simpa using h.1
    simp only [List.foldl_cons, hc, if_false]
    rw [ih (acc ++ [c]) h.2]
    simp

theorem lastSegAux_after_slash (u w : List Char) (acc : List Char)
    (h : noSlash w = true) :
    (u ++ '/' :: w).foldl (fun acc c => if c = '/' then [] else acc ++ [c]) acc =
      w := by
  rw [List.foldl_append]
  simp only [List.foldl_cons, if_pos rfl]
  simpa using lastSegAux_noSlash w [] h

theorem normSegsStep_normal (abs : Bool) (st : List (List Char)) (t : List Char)
    (ht : normalSeg t = true) : normSegsStep abs st t = t :: st := by
  simp only [normalSeg, Bool.and_eq_true] at ht
  have h1 : ¬(t = [] ∨ t = ['.']) := by
    rintro (h | h)
    · exact absurd h (by simpa using ht.1.1.1)
    · exact absurd h (by simpa using ht.1.1.2)
  have h2 : ¬(t = ['.', '.']) := by simpa using ht.1.2
  simp [normSegsStep, h1, h2]

theorem normSegs_append_normal (abs : Bool) (zs : List (List Char))
    (t : List Char) (ht : normalSeg t = true) :
    normSegs abs (zs ++ [t]) =
      ((zs.foldl (normSegsStep abs) []).reverse) ++ [t] := by
  simp only [normSegs, List.foldl_append, List.foldl_cons, List.foldl_nil]
  rw [normSegsStep_normal abs _ t ht]
  simp

theorem joinSegs_append_last (pre : List (List Char)) (t : List Char)
    (hpre : pre ≠ []) :
    joinSegs (pre ++ [t]) = joinSegs pre ++ '/' :: t := by
  induction pre with
  | nil => exact absurd rfl hpre
  | cons p rest ih =>
    cases rest with
    | nil => simp [joinSegs]
    | cons q rest2 =>
      have h2 : (q :: rest2 : List (List Char)) ≠ [] := by simp
      have e1 : (p :: q :: rest2 : List (List Char)) ++ [t] =
          p :: ((q :: rest2) ++ [t]) := rfl
      have e2 : joinSegs (p :: ((q :: rest2) ++ [t])) =
          p ++ '/' :: joinSegs ((q :: rest2) ++ [t]) := rfl
      rw [e1, e2, ih h2]
      simp [joinSegs]

theorem lastSegChars_render (abs : Bool) (pre : List (List Char))
    (t : List Char) (ht : normalSeg t = true) :
    lastSegChars (renderPath abs (pre ++ [t])) = t := by
  have hns : noSlash t = true := by
    simp only [normalSeg, Bool.and_eq_true] at ht
    exact ht.2
  cases hpre : pre with
  | nil =>
    cases abs with
    | true =>
      simp only [renderPath, if_pos rfl, List.nil_append, joinSegs]
      simp only [lastSegChars]
      exact lastSegAux_after_slash [] t [] hns
    | false =>
      have htne : t ≠ [] := by
        simp only [normalSeg, Bool.and_eq_true] at ht
        simpa using ht.1.1.1
      simp only [renderPath, List.nil_append, joinSegs]
      rw [if_neg (by simp), if_neg (by simpa using htne)]
      simp only [lastSegChars]
      exact lastSegAux_noSlash t [] hns
  | cons p rest =>
    have hpne : (p :: rest : List (List Char)) ≠ [] := by simp
    cases abs with
    | true =>
      simp only [renderPath, if_pos rfl]
      rw [joinSegs_append_last _ t hpne]
      simp only [lastSegChars]
      exact lastSegAux_after_slash ('/' :: joinSegs (p :: rest)) t [] hns
    | false =>
      simp only [renderPath]
      rw [if_neg (by simp), joinSegs_append_last _ t hpne,
        if_neg (by simp)]
      simp only [lastSegChars]
      exact lastSegAux_after_slash (joinSegs (p :: rest)) t [] hns

theorem splitSegsAux_append_slash (xs : List Char) :
    ∀ cur ys, splitSegsAux (xs ++ '/' :: ys) cur =
      splitSegsAux xs cur ++ splitSegsAux ys [] := by
  induction xs with
  | nil => intro cur ys; simp [splitSegsAux]
  | cons c rest ih =>
    intro cur ys
    by_cases hc : c = '/'
    · simp [splitSegsAux, hc, ih]
    · simp [splitSegsAux, hc, ih]

theorem splitSegs_append (a b : String) :
    splitSegs (a ++ "/" ++ b) = splitSegs a ++ splitSegs b := by
  have hdata : (a ++ "/" ++ b).data = a.data ++ '/' :: b.data := by
    simp [String.data_append]
  simp only [splitSegs, hdata]
  exact splitSegsAux_append_slash a.data [] b.data

theorem lastSegChars_normalizePosix (s : String) (zs : List (List Char))
    (t : List Char) (hsplit : splitSegs s = zs ++ [t])
    (ht : normalSeg t = true) :
    lastSegChars (normalizePosix s) = t := by
  simp only [normalizePosix, hsplit]
  rw [normSegs_append_normal _ zs t ht]
  exact lastSegChars_render _ _ t ht

theorem lastSegChars_pathJoin (a b : String) (zs : List (List Char))
    (t : List Char) (hb : b ≠ "") (hsplit : splitSegs b = zs ++ [t])
    (ht : normalSeg t = true) :
    lastSegChars (pathJoin a b) = t := by
  by_cases ha : a = ""
  · subst ha
    simp [pathJoin, hb]
    exact lastSegChars_normalizePosix b zs t hsplit ht
  · simp only [pathJoin]
    rw [if_neg (by simp [ha]), if_neg ha, if_neg hb]
    have hsplit2 : splitSegs (a ++ "/" ++ b) = (splitSegs a ++ zs) ++ [t] := by
      rw [splitSegs_append, hsplit, List.append_assoc]
    exact lastSegChars_normalizePosix _ _ t hsplit2 ht

/-- Model of `expandHome` (paths.ts): `~` and `~/...` expand against the
home directory; everything else is returned unchanged. -/
def expandHome (inputPath homeDir : String) : String :=
  if inputPath = "" then inputPath
  else if homeDir = "" then inputPath
  else if inputPath = "~" then homeDir
  else if strStartsWith inputPath "~/" then
    pathJoin homeDir (String.mk (inputPath.data.drop 2))
  else inputPath

/-- Lower-cases a string character-wise (the win32 case-folding of
`normalizePath`). -/
def toLowerStr (s : String) : String := String.mk (s.data.map Char.toLower)

/-- Model of `normalizePath` (paths.ts): expand the home prefix, resolve to
an absolute path (node resolves against `process.cwd()`, passed here as the
explicit absolute `cwd`), and lower-case on win32. -/
def normalizePath (cwd : String) (inputPath homeDir : String)
    (platform : Platform) : String :=
  let expanded := expandHome inputPath homeDir
  let resolved := resolveChain cwd [expanded]
  match platform with
  | .win32 => toLowerStr resolved
  | _ => resolved

/-- Model of `isSamePath` (paths.ts). -/
def isSamePath (cwd : String) (left right homeDir : String)
    (platform : Platform) : Bool :=
  normalizePath cwd left homeDir platform ==
    normalizePath cwd right homeDir platform

/-- Model of `encodeExtraPath` (paths.ts): backslashes become slashes, runs
of characters outside `[a-zA-Z0-9._-]` collapse to `_`, leading underscores
are stripped, the tail is capped at 80 characters, and an 8-hex-character
digest of the normalized path is appended. The SHA-1 digest itself is
abstracted as the `hash8` argument (no claim depends on its value). -/
def encodeExtraPath (hash8 : String → String) (inputPath : String) : String :=
  let normalized := String.mk (inputPath.data.map
    (fun c => if c = '\\' then '/' else c))
  let isSafe := fun (c : Char) =>
    (('a' ≤ c ∧ c ≤ 'z') ∨ ('A' ≤ c ∧ c ≤ 'Z') ∨ ('0' ≤ c ∧ c ≤ '9') ∨
      c = '.' ∨ c = '_' ∨ c = '-' : Prop)
  let collapsed := (normalized.data.foldl
    (fun (acc : List Char × Bool) c =>
      if isSafe c then (acc.1 ++ [c], false)
      else if acc.2 then acc else (acc.1 ++ ['_'], true))
    ([], false)).1
  let safeBase := collapsed.dropWhile (fun c => c = '_')
  let base := if safeBase = [] then "path".data
    else safeBase.reverse.take 80 |>.reverse
  String.mk base ++ "-" ++ hash8 normalized

/-- The XDG root directories (paths.ts). -/
structure XdgPaths where
  homeDir : String
  configDir : String
  dataDir : String
  stateDir : String
deriving Repr, DecidableEq

/-- The resolved sync locations (paths.ts). -/
structure SyncLocations where
  xdg : XdgPaths
  configRoot : String
  syncConfigPath : String
  overridesPath : String
  statePath : String
  defaultRepoDir : String
deriving Repr, DecidableEq

/-- A secrets-backend descriptor as far as the plan builder needs it
(backend type tag, vault, and the two logical document titles). -/
structure SecretsBackendConfig where
  type : String
  vault : Option String
  authJson : Option String
  mcpAuthJson : Option String
deriving Repr, DecidableEq

/-- The fully-populated configuration consumed by the plan builder; the
fields mirror the normalized config of the sync engine (feature flags,
extra-path allow-lists, optional secrets backend). -/
structure NormalizedSyncConfig where
  includeSecrets : Bool
  includeMcpSecrets : Bool
  includeSessions : Bool
  includePromptStash : Bool
  includeModelFavorites : Bool
  extraSecretPaths : List String
  extraConfigPaths : List String
  secretsBackend : Option SecretsBackendConfig
deriving Repr, DecidableEq

/-- Modelled from the spec: `hasSecretsBackend` is defined in the newer
config.ts, which is not part of this snapshot; per the spec a configured
secrets backend is exactly a present `secretsBackend` descriptor in the
normalized configuration. -/
def hasSecretsBackend (config : NormalizedSyncConfig) : Bool :=
  config.secretsBackend.isSome

/-- One planned extra-path entry (normalized source and its mirror-side
location). -/
structure ExtraPathEntry where
  sourcePath : String
  repoPath : String
deriving Repr, DecidableEq

/-- The extra-path part of a sync plan (paths.ts). -/
structure ExtraPathPlan where
  allowlist : List String
  manifestPath : String
  entries : List ExtraPathEntry
deriving Repr, DecidableEq

/-- A complete sync plan (paths.ts). -/
structure SyncPlan where
  items : List SyncItem
  extraSecrets : ExtraPathPlan
  extraConfigs : ExtraPathPlan
  repoRoot : String
  homeDir : String
  platform : Platform
deriving Repr

/-- The named config subdirectories synced by default. -/
def CONFIG_DIRS : List String :=
  ["agent", "command", "mode", "tool", "themes", "plugin"]

/-- The session storage directories synced when sessions are included. -/
def SESSION_DIRS : List String :=
  ["storage/session", "storage/message", "storage/part", "storage/session_diff"]

/-- The prompt-stash files synced when the prompt stash is included. -/
def PROMPT_STASH_FILES : List String :=
  ["prompt-stash.jsonl", "prompt-history.jsonl"]

/-- Model of `buildExtraPathPlan` (paths.ts). -/
def buildExtraPathPlan (cwd : String) (hash8 : String → String)
    (inputPaths : List String) (locations : SyncLocations)
    (repoExtraDir manifestPath : String) (platform : Platform) :
    ExtraPathPlan :=
  let allowlist := inputPaths.map
    (fun entry => normalizePath cwd entry locations.xdg.homeDir platform)
  let entries := allowlist.map (fun sourcePath =>
    { sourcePath, repoPath := pathJoin repoExtraDir (encodeExtraPath hash8 sourcePath) })
  { allowlist, manifestPath, entries }

/-- Model of `buildSyncPlan` (paths.ts, lines 325-470). The two secret
items are pushed by the source without an `isAuthToken` field; reading that
field of such an item in JavaScript yields `undefined`, which is falsy, so
they are modelled with `isAuthToken := false`. -/
def buildSyncPlan (cwd : String) (hash8 : String → String)
    (config : NormalizedSyncConfig) (locations : SyncLocations)
    (repoRoot : String) (platform : Platform) : SyncPlan :=
  let configRoot := locations.configRoot
  let dataRoot := pathJoin locations.xdg.dataDir "opencode"
  let stateRoot := pathJoin locations.xdg.stateDir "opencode"
  let repoConfigRoot := pathJoin repoRoot "config"
  let repoDataRoot := pathJoin repoRoot "data"
  let repoSecretsRoot := pathJoin repoRoot "secrets"
  let repoStateRoot := pathJoin repoRoot "state"
  let repoExtraDir := pathJoin repoSecretsRoot "extra"
  let manifestPath := pathJoin repoSecretsRoot "extra-manifest.json"
  let repoConfigExtraDir := pathJoin repoConfigRoot "extra"
  let configManifestPath := pathJoin repoConfigRoot "extra-manifest.json"
  let usingSecretsBackend := hasSecretsBackend config
  let authJsonPath := pathJoin dataRoot "auth.json"
  let mcpAuthJsonPath := pathJoin dataRoot "mcp-auth.json"
  let addFile := fun (name : String) (isSecret isConfigFile : Bool) =>
    ({ localPath := pathJoin configRoot name,
       repoPath := pathJoin repoConfigRoot name,
       type := .file, isSecret, isConfigFile, isAuthToken := false } : SyncItem)
  let baseItems :=
    [addFile "opencode.json" false true,
     addFile "opencode.jsonc" false true,
     addFile "AGENTS.md" false false,
     addFile "opencode-synced.jsonc" false false]
  let dirItems := CONFIG_DIRS.map (fun dirName =>
    ({ localPath := pathJoin configRoot dirName,
       repoPath := pathJoin repoConfigRoot dirName,
       type := .dir, isSecret := false, isConfigFile := false,
       isAuthToken := false } : SyncItem))
  let favoriteItems := if config.includeModelFavorites then
    [({ localPath := pathJoin stateRoot "model.json",
        repoPath := pathJoin repoStateRoot "model.json",
        type := .file, isSecret := false, isConfigFile := false,
        isAuthToken := false } : SyncItem)]
    else []
  let authItems := if !usingSecretsBackend then
    [({ localPath := authJsonPath,
        repoPath := pathJoin repoDataRoot "auth.json",
        type := .file, isSecret := true, isConfigFile := false,
        isAuthToken := false } : SyncItem),
     ({ localPath := mcpAuthJsonPath,
        repoPath := pathJoin repoDataRoot "mcp-auth.json",
        type := .file, isSecret := true, isConfigFile := false,
        isAuthToken := false } : SyncItem)]
    else []
  let sessionItems := if config.includeSessions then
    SESSION_DIRS.map (fun dirName =>
      ({ localPath := pathJoin dataRoot dirName,
         repoPath := pathJoin repoDataRoot dirName,
         type := .dir, isSecret := true, isConfigFile := false,
         isAuthToken := false } : SyncItem))
    else []
  let stashItems := if config.includePromptStash then
    PROMPT_STASH_FILES.map (fun fileName =>
      ({ localPath := pathJoin stateRoot fileName,
         repoPath := pathJoin repoStateRoot fileName,
         type := .file, isSecret := true, isConfigFile := false,
         isAuthToken := false } : SyncItem))
    else []
  let secretBlock := if config.includeSecrets then
    authItems ++ sessionItems ++ stashItems else []
  let items := baseItems ++ dirItems ++ favoriteItems ++ secretBlock
  let extraSecretPaths := if config.includeSecrets then
    config.extraSecretPaths else []
  let filteredExtraSecrets := if usingSecretsBackend then
    extraSecretPaths.filter (fun entry =>
      !(isSamePath cwd entry authJsonPath locations.xdg.homeDir platform) &&
      !(isSamePath cwd entry mcpAuthJsonPath locations.xdg.homeDir platform))
    else extraSecretPaths
  let extraSecrets := buildExtraPathPlan cwd hash8 filteredExtraSecrets
    locations repoExtraDir manifestPath platform
  let extraConfigPaths := config.extraConfigPaths.filter (fun entry =>
    !(isSamePath cwd entry locations.syncConfigPath locations.xdg.homeDir platform))
  let extraConfigs := buildExtraPathPlan cwd hash8 extraConfigPaths
    locations repoConfigExtraDir configManifestPath platform
  { items, extraSecrets, extraConfigs, repoRoot,
    homeDir := locations.xdg.homeDir, platform }

/-- The backend-owned local auth.json path of a location set. -/
def authJsonPathOf (locations : SyncLocations) : String :=
  pathJoin (pathJoin locations.xdg.dataDir "opencode") "auth.json"

/-- The backend-owned local mcp-auth.json path of a location set. -/
def mcpAuthJsonPathOf (locations : SyncLocations) : String :=
  pathJoin (pathJoin locations.xdg.dataDir "opencode") "mcp-auth.json"

theorem lastSegChars_authJsonPathOf (locations : SyncLocations) :
    lastSegChars (authJsonPathOf locations) = "auth.json".data :=
  lastSegChars_pathJoin _ "auth.json" [] "auth.json".data
    (by decide) (by decide) (by decide)

theorem lastSegChars_mcpAuthJsonPathOf (locations : SyncLocations) :
    lastSegChars (mcpAuthJsonPathOf locations) = "mcp-auth.json".data :=
  lastSegChars_pathJoin _ "mcp-auth.json" [] "mcp-auth.json".data
    (by decide) (by decide) (by decide)

theorem localPath_ne_auth (a b : String) (locations : SyncLocations)
    (zs : List (List Char)) (t : List Char) (hb : b ≠ "")
    (hsplit : splitSegs b = zs ++ [t]) (ht : normalSeg t = true)
    (hne1 : t ≠ "auth.json".data) (hne2 : t ≠ "mcp-auth.json".data) :
    pathJoin a b ≠ authJsonPathOf locations ∧
      pathJoin a b ≠ mcpAuthJsonPathOf locations := by
  constructor
  · intro hc
    have heq := congrArg lastSegChars hc
    rw [lastSegChars_pathJoin a b zs t hb hsplit ht,
      lastSegChars_authJsonPathOf locations] at heq
    exact hne1 heq
  · intro hc
    have heq := congrArg lastSegChars hc
    rw [lastSegChars_pathJoin a b zs t hb hsplit ht,
      lastSegChars_mcpAuthJsonPathOf locations] at heq
    exact hne2 heq

theorem mem_of_mem_ite_nil {α : Type} {c : Bool} {l : List α} {x : α}
    (h : x ∈ (if c = true then l else [])) : x ∈ l := by
  cases c
  · simp at h
  · simpa using h

/-- Claim C2: whenever a secrets backend is configured, the plan contains
no item whose local path is the backend-owned auth.json or mcp-auth.json
path, regardless of the secrets flag, and every configured
extra-secret-path entry that normalizes to one of those two paths is
excluded from the extra-secrets plan. -/
theorem buildSyncPlan_backend_excludes_auth (cwd : String)
    (hash8 : String → String) (config : NormalizedSyncConfig)
    (locations : SyncLocations) (repoRoot : String) (platform : Platform)
    (hsb : hasSecretsBackend config = true) :
    (∀ item ∈ (buildSyncPlan cwd hash8 config locations repoRoot platform).items,
      item.localPath ≠ authJsonPathOf locations ∧
      item.localPath ≠ mcpAuthJsonPathOf locations) ∧
    (∀ e ∈ (buildSyncPlan cwd hash8 config locations repoRoot
        platform).extraSecrets.entries,
      e.sourcePath ≠
        normalizePath cwd (authJsonPathOf locations) locations.xdg.homeDir platform ∧
      e.sourcePath ≠
        normalizePath cwd (mcpAuthJsonPathOf locations) locations.xdg.homeDir platform) := by
  constructor
  · intro item hmem
    simp only [buildSyncPlan, hsb, Bool.not_true, Bool.false_eq_true, if_false,
      List.nil_append] at hmem
    rcases List.mem_append.mp hmem with hmem12f | hmem4
    rcases List.mem_append.mp hmem12f with hmem12 | hmem3
    rcases List.mem_append.mp hmem12 with hmem1 | hmem2
    · simp only [List.mem_cons, List.mem_singleton, List.not_mem_nil,
        or_false] at hmem1
      rcases hmem1 with rfl | rfl | rfl | rfl
      · exact localPath_ne_auth _ "opencode.json" locations [] "opencode.json".data
          (by decide) (by decide) (by decide) (by decide) (by decide)
      · exact localPath_ne_auth _ "opencode.jsonc" locations [] "opencode.jsonc".data
          (by decide) (by decide) (by decide) (by decide) (by decide)
      · exact localPath_ne_auth _ "AGENTS.md" locations [] "AGENTS.md".data
          (by decide) (by decide) (by decide) (by decide) (by decide)
      · exact localPath_ne_auth _ "opencode-synced.jsonc" locations []
          "opencode-synced.jsonc".data
          (by decide) (by decide) (by decide) (by decide) (by decide)
    · obtain ⟨d, hd, rfl⟩ := List.mem_map.mp hmem2
      simp only [CONFIG_DIRS, List.mem_cons, List.mem_singleton,
        List.not_mem_nil, or_false] at hd
      rcases hd with rfl | rfl | rfl | rfl | rfl | rfl
      · exact localPath_ne_auth _ "agent" locations [] "agent".data
          (by decide) (by decide) (by decide) (by decide) (by decide)
      · exact localPath_ne_auth _ "command" locations [] "command".data
          (by decide) (by decide) (by decide) (by decide) (by decide)
      · exact localPath_ne_auth _ "mode" locations [] "mode".data
          (by decide) (by decide) (by decide) (by decide) (by decide)
      · exact localPath_ne_auth _ "tool" locations [] "tool".data
          (by decide) (by decide) (by decide) (by decide) (by decide)
      · exact localPath_ne_auth _ "themes" locations [] "themes".data
          (by decide) (by decide) (by decide) (by decide) (by decide)
      · exact localPath_ne_auth _ "plugin" locations [] "plugin".data
          (by decide) (by decide) (by decide) (by decide) (by decide)
    · have hmem3b := mem_of_mem_ite_nil hmem3
      simp only [List.mem_singleton] at hmem3b
      subst hmem3b
      exact localPath_ne_auth _ "model.json" locations [] "model.json".data
        (by decide) (by decide) (by decide) (by decide) (by decide)
    · have hmem4b := mem_of_mem_ite_nil hmem4
      rcases List.mem_append.mp hmem4b with hmem5 | hmem6
      · have hmem5b := mem_of_mem_ite_nil hmem5
        obtain ⟨d, hd, rfl⟩ := List.mem_map.mp hmem5b
        simp only [SESSION_DIRS, List.mem_cons, List.mem_singleton,
          List.not_mem_nil, or_false] at hd
        rcases hd with rfl | rfl | rfl | rfl
        · exact localPath_ne_auth _ "storage/session" locations
            ["storage".data] "session".data
            (by decide) (by decide) (by decide) (by decide) (by decide)
        · exact localPath_ne_auth _ "storage/message" locations
            ["storage".data] "message".data
            (by decide) (by decide) (by decide) (by decide) (by decide)
        · exact localPath_ne_auth _ "storage/part" locations
            ["storage".data] "part".data
            (by decide) (by decide) (by decide) (by decide) (by decide)
        · exact localPath_ne_auth _ "storage/session_diff" locations
            ["storage".data] "session_diff".data
            (by decide) (by decide) (by decide) (by decide) (by decide)
      · have hmem6b := mem_of_mem_ite_nil hmem6
        obtain ⟨f, hf, rfl⟩ := List.mem_map.mp hmem6b
        simp only [PROMPT_STASH_FILES, List.mem_cons, List.mem_singleton,
          List.not_mem_nil, or_false] at hf
        rcases hf with rfl | rfl
        · exact localPath_ne_auth _ "prompt-stash.jsonl" locations []
            "prompt-stash.jsonl".data
            (by decide) (by decide) (by decide) (by decide) (by decide)
        · exact localPath_ne_auth _ "prompt-history.jsonl" locations []
            "prompt-history.jsonl".data
            (by decide) (by decide) (by decide) (by decide) (by decide)
  · intro e he
    simp only [buildSyncPlan, buildExtraPathPlan, hsb, if_true] at he
    obtain ⟨sp, hsp, rfl⟩ := List.mem_map.mp he
    obtain ⟨x, hx, rfl⟩ := List.mem_map.mp hsp
    have hx2 := List.mem_filter.mp hx
    have hcond := hx2.2
    simp only [Bool.and_eq_true, Bool.not_eq_true] at hcond
    constructor
    · intro hc
      have : isSamePath cwd x (authJsonPathOf locations) locations.xdg.homeDir
          platform = true := by
        simp only [isSamePath, authJsonPathOf]
        rw [show normalizePath cwd x locations.xdg.homeDir platform =
          normalizePath cwd (authJsonPathOf locations) locations.xdg.homeDir
            platform from hc]
        simp [authJsonPathOf]
      rw [show isSamePath cwd x
          (pathJoin (pathJoin locations.xdg.dataDir "opencode") "auth.json")
          locations.xdg.homeDir platform =
        isSamePath cwd x (authJsonPathOf locations) locations.xdg.homeDir
          platform from rfl] at hcond
      rw [this] at hcond
      exact absurd hcond.1 (by simp)
    · intro hc
      have : isSamePath cwd x (mcpAuthJsonPathOf locations) locations.xdg.homeDir
          platform = true := by
        simp only [isSamePath, mcpAuthJsonPathOf]
        rw [show normalizePath cwd x locations.xdg.homeDir platform =
          normalizePath cwd (mcpAuthJsonPathOf locations) locations.xdg.homeDir
            platform from hc]
        simp [mcpAuthJsonPathOf]
      rw [show isSamePath cwd x
          (pathJoin (pathJoin locations.xdg.dataDir "opencode") "mcp-auth.json")
          locations.xdg.homeDir platform =
        isSamePath cwd x (mcpAuthJsonPathOf locations) locations.xdg.homeDir
          platform from rfl] at hcond
      rw [this] at hcond
      exact absurd hcond.2 (by simp)

/-- The XDG base directories the test suite resolves for HOME=/home/test. -/
def testXdg : XdgPaths :=
  { homeDir := "/home/test"
    configDir := "/home/test/.config"
    dataDir := "/home/test/.local/share"
    stateDir := "/home/test/.local/state" }

/-- The locations the test suite resolves for HOME=/home/test on linux. -/
def testLocations : SyncLocations :=
  { xdg := testXdg,
    configRoot := "/home/test/.config/opencode",
    syncConfigPath := "/home/test/.config/opencode/opencode-synced.jsonc",
    overridesPath := "/home/test/.config/opencode/opencode-synced.overrides.jsonc",
    statePath := "/home/test/.local/share/opencode/sync-state.json",
    defaultRepoDir := "/home/test/.local/share/opencode/opencode-synced/repo" }

/-- A valid 1Password backend descriptor. -/
def testBackend : SecretsBackendConfig :=
  { type := "1password", vault := some "Personal",
    authJson := some "opencode-auth.json",
    mcpAuthJson := some "opencode-mcp-auth.json" }

/-- A configuration with secrets enabled and a backend configured. -/
def testBackendConfig : NormalizedSyncConfig :=
  { includeSecrets := true, includeMcpSecrets := false,
    includeSessions := false, includePromptStash := false,
    includeModelFavorites := true,
    extraSecretPaths := ["/home/test/.ssh/id_rsa"],
    extraConfigPaths := [], secretsBackend := some testBackend }

/-- Witness for C2 at the test configuration: the first plan item (the
opencode.json config file) is not a backend-owned auth file. -/
theorem buildSyncPlan_backend_excludes_auth_witness :
    hasSecretsBackend testBackendConfig = true ∧
    (({ localPath := "/home/test/.config/opencode/opencode.json",
        repoPath := "/repo/config/opencode.json", type := .file,
        isSecret := false, isConfigFile := true, isAuthToken := false } :
          SyncItem).localPath ≠ authJsonPathOf testLocations ∧
     ({ localPath := "/home/test/.config/opencode/opencode.json",
        repoPath := "/repo/config/opencode.json", type := .file,
        isSecret := false, isConfigFile := true, isAuthToken := false } :
          SyncItem).localPath ≠ mcpAuthJsonPathOf testLocations) :=
  ⟨rfl,
   (buildSyncPlan_backend_excludes_auth "/" (fun _ => "00000000")
      testBackendConfig testLocations "/repo" .linux rfl).1
     { localPath := "/home/test/.config/opencode/opencode.json",
       repoPath := "/repo/config/opencode.json", type := .file,
       isSecret := false, isConfigFile := true, isAuthToken := false }
     (by decide)⟩

/-- A configuration with secrets enabled and no backend (the failing input
of claim C5). -/
def testNoBackendConfig : NormalizedSyncConfig :=
  { includeSecrets := true, includeMcpSecrets := false,
    includeSessions := false, includePromptStash := false,
    includeModelFavorites := true, extraSecretPaths := [],
    extraConfigPaths := [], secretsBackend := none }

/-- Claim C5 (code bug): with includeSecrets=true and no backend, the plan
does contain exactly the two secret auth-file items, but the source pushes
them without the `isAuthToken` field (so it reads as falsy `undefined`):
no plan item at all is marked `isAuthToken`, while the repo test suite
(paths.test.ts, "marks auth.json and mcp-auth.json as isAuthToken")
expects exactly those two items to be marked both secret and auth-token. -/
theorem buildSyncPlan_authToken_missing :
    (((buildSyncPlan "/" (fun _ => "00000000") testNoBackendConfig
        testLocations "/repo" .linux).items.filter
      (fun i => i.isSecret && i.isAuthToken)).length = 0) ∧
    (((buildSyncPlan "/" (fun _ => "00000000") testNoBackendConfig
        testLocations "/repo" .linux).items.filter
      (fun i => i.isSecret)).map (fun i => i.localPath) =
      ["/home/test/.local/share/opencode/auth.json",
       "/home/test/.local/share/opencode/mcp-auth.json"]) ∧
    (((buildSyncPlan "/" (fun _ => "00000000") testNoBackendConfig
        testLocations "/repo" .linux).items.filter
      (fun i => i.isAuthToken)).length = 0) := by
  refine ⟨?_, ?_, ?_⟩ <;> decide

/-! ## Secrets backend: document lookup, pull and push (secrets-backend.ts)

The 1Password backend resolves each configured logical document name against
a freshly listed vault index under case-insensitive title comparison.  The
shell (`op ...` invocations) and the filesystem are abstracted as oracles in
an environment record; everything else follows `listVaultDocuments`,
`lookupDocument`, `pullDocument` and `pushDocument` line by line. -/

/-- ASCII whitespace, the fragment of `String.prototype.trim` the configured
document names exercise. -/
def isWsChar (c : Char) : Bool :=
  c = ' ' || c = '\t' || c = '\n' || c = '\r'

/-- Model of `name.trim()` at the character level. -/
def strTrim (s : String) : String :=
  String.mk (((s.data.dropWhile isWsChar).reverse.dropWhile isWsChar).reverse)

/-- Model of `normalizeDocumentName` (secrets-backend.ts):
`name.trim().toLowerCase()`. -/
def normalizeDocumentName (name : String) : String :=
  toLowerStr (strTrim name)

/-- One entry of the vault listing: the `{id, title}` pair kept by
`listVaultDocuments` for each parsed document record. -/
structure VaultEntry where
  id : String
  title : String
deriving Repr, DecidableEq

/-- The match list `index.get(key) ?? []` of the `DocumentIndex` built by
`listVaultDocuments`: the map groups entries by normalized title in listing
order, skipping entries with an empty id or title, so the matches for a key
are exactly the valid entries whose normalized title equals the key. -/
def indexMatches (entries : List VaultEntry) (key : String) : List VaultEntry :=
  entries.filter
    (fun e => !(e.id = "") && !(e.title = "") && normalizeDocumentName e.title = key)

/-- The three lookup states of `lookupDocument`. -/
inductive LookupState where
  | missing
  | duplicate
  | ok
deriving Repr, DecidableEq

/-- Model of `lookupDocument` (secrets-backend.ts): the state and the match
count for a configured document name. -/
def lookupDocument (entries : List VaultEntry) (documentName : String) :
    LookupState × Nat :=
  let found := indexMatches entries (normalizeDocumentName documentName)
  if found.length = 0 then (.missing, 0)
  else if 1 < found.length then (.duplicate, found.length)
  else (.ok, 1)

/-- Result of one abstracted `op` subprocess invocation. -/
inductive OpResult where
  | ok
  | failed
deriving Repr, DecidableEq

/-- Oracle environment for `pullDocument`: whether `op document get`
succeeds, the re-listed index of the one bounded retry (`none` when the
retry listing itself fails), and the formatted text of the shell error. -/
structure PullEnv where
  opGet : OpResult
  retryList : Option (List VaultEntry)
  errText : String
deriving Repr, DecidableEq

/-- Oracle environment for `pushDocument`: whether the local source file
exists, the results of `op document edit` and `op document create`, the
re-listed retry index, and the formatted shell error text. -/
structure PushEnv where
  sourceExists : Bool
  opEdit : OpResult
  opCreate : OpResult
  retryList : Option (List VaultEntry)
  errText : String
deriving Repr, DecidableEq

/-- Observable outcome of one pull or push of a single document. -/
inductive DocOutcome where
  | noop
  | replaced
  | created
  | edited
  | error (msg : String)
deriving Repr, DecidableEq

/-- The exact ambiguity message both `pullDocument` and `pushDocument`
throw on a duplicate lookup. -/
def ambiguousMessage (documentName vault : String) : String :=
  "Multiple documents named \"" ++ documentName ++ "\" found in vault \"" ++
    vault ++ "\". Rename them to be unique."

/-- Model of `pullDocument` (secrets-backend.ts): missing is a no-op,
duplicate throws the ambiguity error before any download, otherwise the
document is downloaded and the file replaced; a failed download re-lists
the index once and acts on the retried lookup, rethrowing the original
download error when the retry still resolves (or cannot list). -/
def pullDocument (vault documentName : String) (entries : List VaultEntry)
    (env : PullEnv) : DocOutcome :=
  let lk := lookupDocument entries documentName
  if lk.1 = LookupState.missing then .noop
  else if lk.1 = LookupState.duplicate then
    .error (ambiguousMessage documentName vault)
  else
    match env.opGet with
    | .ok => .replaced
    | .failed =>
      match env.retryList with
      | none => .error ("1Password download failed: " ++ env.errText)
      | some retried =>
        let lk2 := lookupDocument retried documentName
        if lk2.1 = LookupState.missing then .noop
        else if lk2.1 = LookupState.duplicate then
          .error (ambiguousMessage documentName vault)
        else .error ("1Password download failed: " ++ env.errText)

/-- Model of `pushDocument` (secrets-backend.ts): a missing source file is a
no-op before any lookup; a duplicate lookup throws the ambiguity error; a
missing document is created; an existing one is edited, with one bounded
re-list-and-retry on edit failure. -/
def pushDocument (vault documentName : String) (entries : List VaultEntry)
    (env : PushEnv) : DocOutcome :=
  if env.sourceExists = false then .noop
  else
    let lk := lookupDocument entries documentName
    if lk.1 = LookupState.duplicate then
      .error (ambiguousMessage documentName vault)
    else if lk.1 = LookupState.missing then
      match env.opCreate with
      | .ok => .created
      | .failed => .error ("1Password create failed: " ++ env.errText)
    else
      match env.opEdit with
      | .ok => .edited
      | .failed =>
        match env.retryList with
        | none => .error ("1Password update failed: " ++ env.errText)
        | some retried =>
          let lk2 := lookupDocument retried documentName
          if lk2.1 = LookupState.missing then
            match env.opCreate with
            | .ok => .created
            | .failed => .error ("1Password create failed: " ++ env.errText)
          else if lk2.1 = LookupState.duplicate then
            .error (ambiguousMessage documentName vault)
          else .error ("1Password update failed: " ++ env.errText)

/-- A vault listing two documents both titled a.json up to case. -/
def dupEntries : List VaultEntry :=
  [{ id := "id1", title := "a.json" }, { id := "id2", title := "A.JSON" }]

/-- Claim C6 counterexample: with two documents both titled a.json up to
case, the lookup is a duplicate with count 2 and both pull and push (with
an existing source file) fail with the ambiguity message -- but that
message contains no digit at all, so the error does not name the number of
matching documents. Moreover push with a missing source file is a silent
no-op rather than a failure. -/
theorem ambiguity_count_cex :
    lookupDocument dupEntries "a.json" = (LookupState.duplicate, 2) ∧
    pullDocument "Personal" "a.json" dupEntries
      { opGet := .ok, retryList := none, errText := "" } =
      .error (ambiguousMessage "a.json" "Personal") ∧
    pushDocument "Personal" "a.json" dupEntries
      { sourceExists := true, opEdit := .ok, opCreate := .ok,
        retryList := none, errText := "" } =
      .error (ambiguousMessage "a.json" "Personal") ∧
    (ambiguousMessage "a.json" "Personal").data.any Char.isDigit = false ∧
    pushDocument "Personal" "a.json" dupEntries
      { sourceExists := false, opEdit := .ok, opCreate := .ok,
        retryList := none, errText := "" } = .noop := by
  refine ⟨?_, ?_, ?_, ?_, ?_⟩ <;> decide

/-- Claim C6 (amended): whenever the indexed lookup of a configured name is
a duplicate, pull always fails with the fixed ambiguity message, and push
fails with the same message exactly when the local source file exists
(otherwise it is a no-op); the message names the document and the vault
but not the match count. -/
theorem pullPush_duplicate_ambiguity (vault documentName : String)
    (entries : List VaultEntry) (pl : PullEnv) (pe : PushEnv)
    (hdup : (lookupDocument entries documentName).1 = LookupState.duplicate) :
    pullDocument vault documentName entries pl =
      .error (ambiguousMessage documentName vault) ∧
    (pe.sourceExists = true →
      pushDocument vault documentName entries pe =
        .error (ambiguousMessage documentName vault)) ∧
    (pe.sourceExists = false →
      pushDocument vault documentName entries pe = .noop) := by
  refine ⟨?_, ?_, ?_⟩
  · simp only [pullDocument, hdup]
    simp
  · intro hsrc
    simp only [pushDocument, hsrc, hdup]
    simp
  · intro hsrc
    simp only [pushDocument, hsrc]
    simp

/-- Witness for the amended C6 theorem at the two-document vault. -/
theorem pullPush_duplicate_ambiguity_witness :
    (lookupDocument dupEntries "a.json").1 = LookupState.duplicate ∧
    pullDocument "Personal" "a.json" dupEntries
      { opGet := .failed, retryList := some [], errText := "x" } =
      .error (ambiguousMessage "a.json" "Personal") :=
  ⟨by decide,
   (pullPush_duplicate_ambiguity "Personal" "a.json" dupEntries
      { opGet := .failed, retryList := some [], errText := "x" }
      { sourceExists := true, opEdit := .ok, opCreate := .ok,
        retryList := none, errText := "x" }
      (by decide)).1⟩

/-! ## Advisory lock manager (utils.ts, `tryAcquireSyncLock`)

The lock file is modelled as a single mutable state: absent, present but
unreadable or corrupt, or present with a parsed owner record.  Process
liveness (`process.kill(pid, 0)`) is an oracle `alive`.  The two-attempt
for loop of `tryAcquireSyncLock` is unrolled as one step function applied
at attempt 0 and attempt 1, followed by the fall-through busy return;
`open(lockPath, 'wx')` succeeds exactly when the file is absent, and the
stale-lock `rm` leaves the file absent for the second attempt.  This is a
sequential model: no other process mutates the file between steps. -/

/-- The parsed contents of a healthy lock file (`SyncLockInfo`). -/
structure SyncLockInfo where
  pid : Int
  startedAt : String
  hostname : String
deriving Repr, DecidableEq

/-- The state of the lock file on disk. -/
inductive LockFileState where
  | absent
  | corrupt
  | valid (info : SyncLockInfo)
deriving Repr, DecidableEq

/-- Model of `readLockInfo`: `null` for a missing, unreadable or corrupt
file, the parsed record otherwise. -/
def readLockInfo : LockFileState → Option SyncLockInfo
  | .absent => none
  | .corrupt => none
  | .valid info => some info

/-- Model of `isProcessAlive`: non-positive pids are never alive, others
are answered by the `alive` oracle (resolving the `process.kill` probe). -/
def isProcessAlive (alive : Int → Bool) (pid : Int) : Bool :=
  if pid ≤ 0 then false else alive pid

/-- What one call of `tryAcquireSyncLock` returns. -/
inductive AcquireOutcome where
  | acquired (info : SyncLockInfo)
  | busy (info : Option SyncLockInfo)
deriving Repr, DecidableEq

/-- One iteration of the acquisition loop at a given attempt number:
`none` means the stale lock was removed and the loop continues, `some r`
means the call returns `r`. The second component is the lock file state
afterwards. -/
def tryAcquireStep (alive : Int → Bool) (ourInfo : SyncLockInfo)
    (attempt : Nat) (st : LockFileState) :
    Option AcquireOutcome × LockFileState :=
  match st with
  | .absent => (some (.acquired ourInfo), .valid ourInfo)
  | st =>
    let existing := readLockInfo st
    let shouldBreakLock :=
      match existing with
      | none => true
      | some info => !isProcessAlive alive info.pid
    if attempt == 0 && shouldBreakLock then (none, .absent)
    else (some (.busy existing), st)

/-- Model of `tryAcquireSyncLock`: the two-attempt loop followed by the
fall-through busy return. -/
def tryAcquireSyncLock (alive : Int → Bool) (ourInfo : SyncLockInfo)
    (st : LockFileState) : AcquireOutcome × LockFileState :=
  match tryAcquireStep alive ourInfo 0 st with
  | (some r, st1) => (r, st1)
  | (none, st1) =>
    match tryAcquireStep alive ourInfo 1 st1 with
    | (some r, st2) => (r, st2)
    | (none, st2) => (.busy (readLockInfo st2), st2)

/-- Claim C7: called on a lock path whose lock file exists, a single
`tryAcquireSyncLock` call (1) acquires the lock, leaving its own record on
disk, when the file is unreadable or corrupt; (2) acquires it likewise when
the recorded owner pid is not alive (the stale file is deleted and the
retry succeeds); and (3) fails and hands the existing owner record back to
the caller, leaving the file untouched, when the owner is alive. -/
theorem tryAcquireSyncLock_existing (alive : Int → Bool)
    (ourInfo : SyncLockInfo) (st : LockFileState)
    (hex : st ≠ LockFileState.absent) :
    (readLockInfo st = none →
      tryAcquireSyncLock alive ourInfo st =
        (AcquireOutcome.acquired ourInfo, LockFileState.valid ourInfo)) ∧
    (∀ info, readLockInfo st = some info →
      isProcessAlive alive info.pid = false →
      tryAcquireSyncLock alive ourInfo st =
        (AcquireOutcome.acquired ourInfo, LockFileState.valid ourInfo)) ∧
    (∀ info, readLockInfo st = some info →
      isProcessAlive alive info.pid = true →
      tryAcquireSyncLock alive ourInfo st =
        (AcquireOutcome.busy (some info), st)) := by
  cases st with
  | absent => exact absurd rfl hex
  | corrupt =>
    refine ⟨fun _ => ?_, fun info hinfo => by simp [readLockInfo] at hinfo,
      fun info hinfo => by simp [readLockInfo] at hinfo⟩
    simp [tryAcquireSyncLock, tryAcquireStep, readLockInfo]
  | valid owner =>
    refine ⟨fun hnone => by simp [readLockInfo] at hnone,
      fun info hinfo hdead => ?_, fun info hinfo halive => ?_⟩
    · simp only [readLockInfo, Option.some.injEq] at hinfo
      subst hinfo
      simp [tryAcquireSyncLock, tryAcquireStep, readLockInfo, hdead]
    · simp only [readLockInfo, Option.some.injEq] at hinfo
      subst hinfo
      simp [tryAcquireSyncLock, tryAcquireStep, readLockInfo, halive]

/-- Witness for C7 at a concrete stale lock: owner pid 123 is dead under
an oracle that reports no process alive, so the call acquires. -/
theorem tryAcquireSyncLock_existing_witness :
    (LockFileState.valid { pid := 123, startedAt := "t0", hostname := "h" } ≠
      LockFileState.absent) ∧
    isProcessAlive (fun _ => false) (123 : Int) = false ∧
    tryAcquireSyncLock (fun _ => false)
      { pid := 456, startedAt := "t1", hostname := "h" }
      (LockFileState.valid { pid := 123, startedAt := "t0", hostname := "h" }) =
      (AcquireOutcome.acquired { pid := 456, startedAt := "t1", hostname := "h" },
       LockFileState.valid { pid := 456, startedAt := "t1", hostname := "h" }) :=
  ⟨by decide, by decide,
   (tryAcquireSyncLock_existing (fun _ => false)
      { pid := 456, startedAt := "t1", hostname := "h" }
      (LockFileState.valid { pid := 123, startedAt := "t0", hostname := "h" })
      (by decide)).2.1
     { pid := 123, startedAt := "t0", hostname := "h" } rfl (by decide)⟩

/-! ## Applying extra-path manifests (apply.ts)

`applyExtraPaths` walks a parsed mirror-side manifest and copies each entry
back to the local filesystem only when the entry's normalized source path
still appears in the plan's allow-list.  Filesystem writes are modelled as
an effect trace; `pathExists` is an oracle.  `applyExtraPathModes` restores
permission bits, resolving each recorded relative item path through
`resolveExtraPathItem`, which rejects empty, absolute and escaping paths
via `path.relative`. -/

/-- The type tag of an extra-path manifest entry. -/
inductive ExtraPathType where
  | file
  | dir
deriving Repr, DecidableEq

/-- One recorded item of a directory-type manifest entry. -/
structure ExtraPathManifestItem where
  relativePath : String
  type : ExtraPathType
  mode : Option Nat
deriving Repr, DecidableEq

/-- One entry of an extra-path manifest (`type` and `mode` are optional in
the persisted JSON). -/
structure ExtraPathManifestEntry where
  sourcePath : String
  repoPath : String
  type : Option ExtraPathType
  mode : Option Nat
  items : Option (List ExtraPathManifestItem)
deriving Repr, DecidableEq

/-- A local-filesystem write performed while applying a manifest. -/
inductive FsEffect where
  | copyItem (repoPath localPath : String) (t : ExtraPathType)
  | chmod (path : String) (mode : Nat)
deriving Repr, DecidableEq

/-- Drops the longest common segment prefix of two segment lists (the core
of node's `path.relative`). -/
def dropCommonSegs :
    List (List Char) → List (List Char) → List (List Char) × List (List Char)
  | f :: fs, t :: ts => if f = t then dropCommonSegs fs ts else (f :: fs, t :: ts)
  | fs, ts => (fs, ts)

/-- Model of node's `path.relative` for absolute POSIX paths: resolve both
sides to segments, drop the common prefix, then climb with `..` and descend
into the remainder. -/
def posixRelative (fromPath toPath : String) : String :=
  let fs := normSegs true (splitSegs fromPath)
  let ts := normSegs true (splitSegs toPath)
  let d := dropCommonSegs fs ts
  let segs := List.replicate d.1.length ['.', '.'] ++ d.2
  if segs = [] then "" else String.mk (joinSegs segs)

/-- Model of `resolveExtraPathItem` (apply.ts): empty and absolute relative
paths yield `null`, as does any path whose `path.relative` from the
resolved base starts with `..`; otherwise the resolved item path. -/
def resolveExtraPathItem (cwd basePath relativePath : String) : Option String :=
  if relativePath = "" then none
  else if isAbsolute relativePath then none
  else
    let resolvedBase := resolveChain cwd [basePath]
    let resolvedPath := resolveChain cwd [basePath, relativePath]
    let rel := posixRelative resolvedBase resolvedPath
    if rel = ".." ∨ strStartsWith rel "../" then none
    else if isAbsolute rel then none
    else some resolvedPath

/-- Chmod effects of one recorded item: skipped when the item carries no
mode or its relative path does not resolve inside the target. -/
def modeItemEffect (cwd targetPath : String) (item : ExtraPathManifestItem) :
    List FsEffect :=
  match item.mode with
  | none => []
  | some m =>
    match resolveExtraPathItem cwd targetPath item.relativePath with
    | none => []
    | some itemPath => [FsEffect.chmod itemPath m]

/-- Chmod effects of a list of recorded items, in order. -/
def modeItemsEffects (cwd targetPath : String) :
    List ExtraPathManifestItem → List FsEffect
  | [] => []
  | item :: rest =>
    modeItemEffect cwd targetPath item ++ modeItemsEffects cwd targetPath rest

/-- Model of `applyExtraPathModes` (apply.ts): restore the entry's own mode
when recorded, then, for directory entries with recorded items, restore
each resolvable item's mode. -/
def applyExtraPathModes (cwd targetPath : String)
    (entry : ExtraPathManifestEntry) : List FsEffect :=
  let head : List FsEffect :=
    match entry.mode with
    | some m => [FsEffect.chmod targetPath m]
    | none => []
  if entry.type ≠ some ExtraPathType.dir then head
  else
    match entry.items with
    | none => head
    | some items =>
      if items = [] then head
      else head ++ modeItemsEffects cwd targetPath items

/-- Effects of one manifest entry under `applyExtraPaths`: nothing unless
the normalized source path is allow-listed and the mirror-side source
exists; otherwise the copy followed by the mode restoration. -/
def applyManifestEntry (cwd : String) (plan : SyncPlan)
    (allowlist : List String) (fsExists : String → Bool)
    (entry : ExtraPathManifestEntry) : List FsEffect :=
  let normalized := normalizePath cwd entry.sourcePath plan.homeDir plan.platform
  if allowlist.contains normalized then
    let repoPath := if isAbsolute entry.repoPath then entry.repoPath
      else pathJoin plan.repoRoot entry.repoPath
    if fsExists repoPath then
      FsEffect.copyItem repoPath entry.sourcePath
          (entry.type.getD ExtraPathType.file) ::
        applyExtraPathModes cwd entry.sourcePath entry
    else []
  else []

/-- Effects of a list of manifest entries, in order. -/
def applyManifestEntries (cwd : String) (plan : SyncPlan)
    (allowlist : List String) (fsExists : String → Bool) :
    List ExtraPathManifestEntry → List FsEffect
  | [] => []
  | e :: rest =>
    applyManifestEntry cwd plan allowlist fsExists e ++
      applyManifestEntries cwd plan allowlist fsExists rest

/-- Model of `applyExtraPaths` (apply.ts): an empty allow-list or a missing
manifest file short-circuits; otherwise every manifest entry is applied in
order. -/
def applyExtraPaths (cwd : String) (plan : SyncPlan) (extra : ExtraPathPlan)
    (fsExists : String → Bool) (entries : List ExtraPathManifestEntry) :
    List FsEffect :=
  if extra.allowlist = [] then []
  else if fsExists extra.manifestPath = false then []
  else applyManifestEntries cwd plan extra.allowlist fsExists entries

example : posixRelative "/a/b" "/a/c/d" = "../c/d" := by decide
example : posixRelative "/a/b" "/a/b/c" = "c" := by decide
example : resolveExtraPathItem "/" "/data" "../x" = none := by decide
example : resolveExtraPathItem "/" "/data" "sub/f" = some "/data/sub/f" := by
  decide

/-- Membership in a directory tree: the root's normalized segments are a
prefix of the path's normalized segments. -/
def inTree (root p : String) : Bool :=
  (normSegs true (splitSegs root)).isPrefixOf (normSegs true (splitSegs p))

theorem splitSegsAux_all_noSlash (l : List Char) :
    ∀ cur, noSlash cur = true → ((splitSegsAux l cur).all noSlash) = true := by
  induction l with
  | nil =>
    intro cur h
    simp only [splitSegsAux, List.all_cons, List.all_nil, Bool.and_true]
    simpa [noSlash, List.all_reverse] using h
  | cons c rest ih =>
    intro cur h
    by_cases hc : c = '/'
    · simp only [splitSegsAux, if_pos hc, List.all_cons, Bool.and_eq_true]
      refine ⟨by simpa [noSlash, List.all_reverse] using h, ih [] (by simp [noSlash])⟩
    · simp only [splitSegsAux, if_neg hc]
      exact ih (c :: cur) (by simp [noSlash, hc] at h ⊢; exact h)

theorem splitSegs_all_noSlash (s : String) :
    ((splitSegs s).all noSlash) = true :=
  splitSegsAux_all_noSlash s.data [] (by simp [noSlash])

theorem normalSeg_ne_dotdot (t : List Char) (h : normalSeg t = true) :
    t ≠ ['.', '.'] := by
  simp only [normalSeg, Bool.and_eq_true] at h
  simpa using h.1.2

theorem foldl_normSegsStep_all_normal (segs : List (List Char)) :
    ∀ st, segs.all noSlash = true → st.all normalSeg = true →
      ((segs.foldl (normSegsStep true) st).all normalSeg) = true := by
  induction segs with
  | nil => intro st _ hst; simpa using hst
  | cons s rest ih =>
    intro st hs hst
    simp only [List.all_cons, Bool.and_eq_true] at hs
    simp only [List.foldl_cons]
    refine ih (normSegsStep true st s) hs.2 ?_
    by_cases h1 : s = [] ∨ s = ['.']
    · simpa [normSegsStep, h1] using hst
    · by_cases h2 : s = ['.', '.']
      · cases st with
        | nil => simp [normSegsStep, h1, h2]
        | cons top rest2 =>
          simp only [List.all_cons, Bool.and_eq_true] at hst
          have htop : top ≠ ['.', '.'] := normalSeg_ne_dotdot top hst.1
          simpa [normSegsStep, h1, h2, htop] using hst.2
      · have hn : normalSeg s = true := by
          push_neg at h1
          simp [normalSeg, noSlash, h1.1, h1.2, h2]
          simpa [noSlash] using hs.1
        simpa [normSegsStep_normal true st s hn, List.all_cons, hn] using hst

theorem normSegs_true_all_normal (segs : List (List Char))
    (h : segs.all noSlash = true) :
    ((normSegs true segs).all normalSeg) = true := by
  simp only [normSegs, List.all_reverse]
  exact foldl_normSegsStep_all_normal segs [] h (by simp)

theorem splitSegsAux_of_noSlash (s : List Char) :
    ∀ cur, noSlash s = true → splitSegsAux s cur = [cur.reverse ++ s] := by
  induction s with
  | nil => intro cur _; simp [splitSegsAux]
  | cons c rest ih =>
    intro cur h
    simp only [noSlash, List.all_cons, Bool.and_eq_true] at h
    have hc : ¬(c = '/') := by simpa using h.1
    simp only [splitSegsAux, if_neg hc]
    rw [ih (c :: cur) (by simpa [noSlash] using h.2)]
    simp

theorem splitSegsAux_joinSegs (L : List (List Char)) (hne : L ≠ [])
    (h : L.all normalSeg = true) : splitSegsAux (joinSegs L) [] = L := by
  induction L with
  | nil => exact absurd rfl hne
  | cons s rest ih =>
    simp only [List.all_cons, Bool.and_eq_true] at h
    have hs : noSlash s = true := by
      simp only [normalSeg, Bool.and_eq_true] at h
      exact h.1.2
    cases rest with
    | nil =>
      have e1 : joinSegs [s] = s := rfl
      rw [e1, splitSegsAux_of_noSlash s [] hs]
      simp
    | cons q rest2 =>
      have e1 : joinSegs (s :: q :: rest2) = s ++ '/' :: joinSegs (q :: rest2) := rfl
      rw [e1, splitSegsAux_append_slash s []]
      rw [splitSegsAux_of_noSlash s [] hs, ih (by simp) h.2]
      simp

theorem foldl_normSegsStep_push (L : List (List Char)) :
    ∀ st, L.all normalSeg = true →
      L.foldl (normSegsStep true) st = L.reverse ++ st := by
  induction L with
  | nil => intro st _; simp
  | cons s rest ih =>
    intro st h
    simp only [List.all_cons, Bool.and_eq_true] at h
    simp only [List.foldl_cons, normSegsStep_normal true st s h.1]
    rw [ih (s :: st) h.2]
    simp

theorem normSegs_id_of_normal (L : List (List Char))
    (h : L.all normalSeg = true) : normSegs true L = L := by
  simp [normSegs, foldl_normSegsStep_push L [] h]

theorem normSegs_splitSegs_render (L : List (List Char))
    (h : L.all normalSeg = true) :
    normSegs true (splitSegs (renderPath true L)) = L := by
  cases hL : L with
  | nil => decide
  | cons s rest =>
    rw [← hL]
    have hsplit : splitSegs (renderPath true L) = [] :: L := by
      have e1 : renderPath true L = String.mk ('/' :: joinSegs L) := by
        simp [renderPath]
      have e2 : splitSegs (String.mk ('/' :: joinSegs L)) =
          splitSegsAux ('/' :: joinSegs L) [] := rfl
      have e5 : splitSegsAux ('/' :: joinSegs L) [] =
          [] :: splitSegsAux (joinSegs L) [] := by
        simp [splitSegsAux]
      rw [e1, e2, e5, splitSegsAux_joinSegs L (by rw [hL]; simp) h]
    rw [hsplit]
    have e3 : normSegs true ([] :: L) = normSegs true L := by
      simp [normSegs, normSegsStep]
    rw [e3]
    exact normSegs_id_of_normal L h

/-- The part-combining fold of `resolveChain`, named so that the rendered
result can be related back to its segments. -/
def combineParts (cwd : String) (ps : List String) : String :=
  (cwd :: ps).foldl
    (fun acc p =>
      if p = "" then acc
      else if isAbsolute p then p
      else acc ++ "/" ++ p) ""

theorem resolveChain_eq_render (cwd : String) (ps : List String) :
    resolveChain cwd ps =
      renderPath true (normSegs true (splitSegs (combineParts cwd ps))) := rfl

theorem resolveChain_segs (cwd : String) (ps : List String) :
    normSegs true (splitSegs (resolveChain cwd ps)) =
      normSegs true (splitSegs (combineParts cwd ps)) := by
  rw [resolveChain_eq_render]
  exact normSegs_splitSegs_render _
    (normSegs_true_all_normal _ (splitSegs_all_noSlash _))

theorem dropCommonSegs_fst_nil (fs : List (List Char)) :
    ∀ ts, (dropCommonSegs fs ts).1 = [] →
      ts = fs ++ (dropCommonSegs fs ts).2 := by
  induction fs with
  | nil => intro ts _; simp [dropCommonSegs]
  | cons f fs2 ih =>
    intro ts h
    cases ts with
    | nil => simp [dropCommonSegs] at h
    | cons t ts2 =>
      by_cases hft : f = t
      · simp only [dropCommonSegs, if_pos hft] at h ⊢
        rw [← hft]
        simpa using ih ts2 h
      · simp [dropCommonSegs, hft] at h

theorem isPrefixOf_append_self (B : List (List Char)) (tr : List (List Char)) :
    B.isPrefixOf (B ++ tr) = true := by
  induction B with
  | nil => simp [List.isPrefixOf]
  | cons b bs ih => simp [List.isPrefixOf, ih]

theorem resolveExtraPathItem_inTree (cwd basePath relativePath p : String)
    (h : resolveExtraPathItem cwd basePath relativePath = some p) :
    inTree (resolveChain cwd [basePath]) p = true := by
  by_cases h0 : relativePath = ""
  · simp [resolveExtraPathItem, h0] at h
  · by_cases h1 : isAbsolute relativePath = true
    · simp [resolveExtraPathItem, h0, h1] at h
    · simp only [resolveExtraPathItem, if_neg h0] at h
      rw [if_neg h1] at h
      split at h
      · exact absurd h (by simp)
      · rename_i hg
        split at h
        · exact absurd h (by simp)
        · rename_i habs
          simp only [Option.some.injEq] at h
          subst h
          have hB := resolveChain_segs cwd [basePath]
          have hT := resolveChain_segs cwd [basePath, relativePath]
          set A := normSegs true (splitSegs (combineParts cwd [basePath]))
            with hAdef
          set T := normSegs true
            (splitSegs (combineParts cwd [basePath, relativePath])) with hTdef
          by_cases hd : (dropCommonSegs A T).1 = []
          · have hTT := dropCommonSegs_fst_nil _ _ hd
            simp only [inTree, hB, hT]
            rw [hTT]
            exact isPrefixOf_append_self _ _
          · exfalso
            apply hg
            obtain ⟨f, fr, hfst⟩ :
                ∃ f fr, (dropCommonSegs A T).1 = f :: fr := by
              cases hc : (dropCommonSegs A T).1 with
              | nil => exact absurd hc hd
              | cons f fr => exact ⟨f, fr, rfl⟩
            have hrel :
                posixRelative (resolveChain cwd [basePath])
                  (resolveChain cwd [basePath, relativePath]) =
                String.mk (joinSegs (['.', '.'] ::
                  (List.replicate fr.length ['.', '.'] ++
                    (dropCommonSegs A T).2))) := by
              simp only [posixRelative, hB, hT, hfst]
              simp [List.replicate_succ]
            cases hrest :
                List.replicate fr.length ['.', '.'] ++
                  (dropCommonSegs A T).2 with
            | nil =>
              left
              rw [hrel, hrest]
              decide
            | cons x xs =>
              right
              rw [hrel, hrest]
              have e4 : joinSegs (['.', '.'] :: x :: xs) =
                  ['.', '.'] ++ '/' :: joinSegs (x :: xs) := rfl
              rw [e4]
              simp [strStartsWith, List.isPrefixOf]

theorem modeItemsEffects_chmod (cwd targetPath : String)
    (items : List ExtraPathManifestItem) (p : String) (m : Nat)
    (hmem : FsEffect.chmod p m ∈ modeItemsEffects cwd targetPath items) :
    inTree (resolveChain cwd [targetPath]) p = true := by
  induction items with
  | nil => simp [modeItemsEffects] at hmem
  | cons item rest ih =>
    simp only [modeItemsEffects, List.mem_append] at hmem
    rcases hmem with h | h
    · unfold modeItemEffect at h
      cases hm : item.mode with
      | none => rw [hm] at h; simp at h
      | some m2 =>
        rw [hm] at h
        cases hr : resolveExtraPathItem cwd targetPath item.relativePath with
        | none => rw [hr] at h; simp at h
        | some ip =>
          rw [hr] at h
          simp only [List.mem_singleton, FsEffect.chmod.injEq] at h
          rw [h.1]
          exact resolveExtraPathItem_inTree cwd targetPath
            item.relativePath ip hr
    · exact ih h

/-- Claim C10: permission restoration never reaches outside the entry's
target directory tree. An empty recorded relative path resolves to `null`;
an absolute one resolves to `null`; any path that does resolve lies inside
the tree of the resolved target directory; and consequently every chmod
effect of `applyExtraPathModes` hits either the target path itself or a
path inside the resolved target's tree. -/
theorem applyExtraPathModes_chmod_safe (cwd targetPath relativePath : String)
    (entry : ExtraPathManifestEntry) :
    resolveExtraPathItem cwd targetPath "" = none ∧
    (isAbsolute relativePath = true →
      resolveExtraPathItem cwd targetPath relativePath = none) ∧
    (∀ itemPath,
      resolveExtraPathItem cwd targetPath relativePath = some itemPath →
      inTree (resolveChain cwd [targetPath]) itemPath = true) ∧
    (∀ p m, FsEffect.chmod p m ∈ applyExtraPathModes cwd targetPath entry →
      p = targetPath ∨ inTree (resolveChain cwd [targetPath]) p = true) := by
  refine ⟨by simp [resolveExtraPathItem], ?_, ?_, ?_⟩
  · intro habs
    by_cases h0 : relativePath = ""
    · simp [resolveExtraPathItem, h0]
    · simp [resolveExtraPathItem, h0, habs]
  · exact fun itemPath h =>
      resolveExtraPathItem_inTree cwd targetPath relativePath itemPath h
  · intro p m hmem
    rcases hmode : entry.mode with _ | mm
    · rcases hitems : entry.items with _ | items
      · simp only [applyExtraPathModes, hmode, hitems] at hmem
        split at hmem <;> simp at hmem
      · simp only [applyExtraPathModes, hmode, hitems] at hmem
        split at hmem
        · simp at hmem
        · split at hmem
          · simp at hmem
          · simp only [List.nil_append] at hmem
            exact Or.inr (modeItemsEffects_chmod cwd targetPath items p m hmem)
    · rcases hitems : entry.items with _ | items
      · simp only [applyExtraPathModes, hmode, hitems] at hmem
        split at hmem <;>
          · simp only [List.mem_singleton, FsEffect.chmod.injEq] at hmem
            exact Or.inl hmem.1
      · simp only [applyExtraPathModes, hmode, hitems] at hmem
        split at hmem
        · simp only [List.mem_singleton, FsEffect.chmod.injEq] at hmem
          exact Or.inl hmem.1
        · split at hmem
          · simp only [List.mem_singleton, FsEffect.chmod.injEq] at hmem
            exact Or.inl hmem.1
          · simp only [List.singleton_append, List.mem_cons] at hmem
            rcases hmem with h | h
            · simp only [FsEffect.chmod.injEq] at h
              exact Or.inl h.1
            · exact Or.inr (modeItemsEffects_chmod cwd targetPath items p m h)

/-- A directory-type manifest entry with one safe and one escaping item. -/
def testModeEntry : ExtraPathManifestEntry :=
  { sourcePath := "/data", repoPath := "secrets/extra/data-00000000",
    type := some ExtraPathType.dir, mode := some 493,
    items := some
      [{ relativePath := "sub/file", type := ExtraPathType.file, mode := some 420 },
       { relativePath := "../escape", type := ExtraPathType.file, mode := some 420 }] }

example : applyExtraPathModes "/" "/data" testModeEntry =
    [FsEffect.chmod "/data" 493, FsEffect.chmod "/data/sub/file" 420] := by
  decide

/-- Witness for C10 at concrete inputs: the absolute item path is refused,
the safe item resolves inside the target tree, and the chmod effect it
produces stays inside that tree. -/
theorem applyExtraPathModes_chmod_safe_witness :
    resolveExtraPathItem "/" "/data" "/etc/passwd" = none ∧
    inTree (resolveChain "/" ["/data"]) "/data/sub/file" = true ∧
    ("/data/sub/file" = "/data" ∨
      inTree (resolveChain "/" ["/data"]) "/data/sub/file" = true) :=
  ⟨(applyExtraPathModes_chmod_safe "/" "/data" "/etc/passwd"
      testModeEntry).2.1 (by decide),
   (applyExtraPathModes_chmod_safe "/" "/data" "sub/file"
      testModeEntry).2.2.1 "/data/sub/file" (by decide),
   (applyExtraPathModes_chmod_safe "/" "/data" "sub/file"
      testModeEntry).2.2.2 "/data/sub/file" 420 (by decide)⟩

theorem contains_false_not_mem (l : List String) (a : String)
    (h : l.contains a = false) : a ∉ l := by
  simpa using h

theorem contains_true_mem (l : List String) (a : String)
    (h : l.contains a = true) : a ∈ l := by
  simpa using h

theorem applyManifestEntry_not_allowed (cwd : String) (plan : SyncPlan)
    (allowlist : List String) (fsExists : String → Bool)
    (entry : ExtraPathManifestEntry)
    (h : allowlist.contains
      (normalizePath cwd entry.sourcePath plan.homeDir plan.platform) = false) :
    applyManifestEntry cwd plan allowlist fsExists entry = [] := by
  simp [applyManifestEntry, contains_false_not_mem _ _ h]

theorem applyManifestEntries_filter (cwd : String) (plan : SyncPlan)
    (allowlist : List String) (fsExists : String → Bool)
    (entries : List ExtraPathManifestEntry) :
    applyManifestEntries cwd plan allowlist fsExists entries =
      applyManifestEntries cwd plan allowlist fsExists
        (entries.filter (fun e => allowlist.contains
          (normalizePath cwd e.sourcePath plan.homeDir plan.platform))) := by
  induction entries with
  | nil => rfl
  | cons e rest ih =>
    by_cases he : allowlist.contains
        (normalizePath cwd e.sourcePath plan.homeDir plan.platform) = true
    · have e1 : List.filter (fun e => allowlist.contains
          (normalizePath cwd e.sourcePath plan.homeDir plan.platform))
          (e :: rest) =
          e :: List.filter (fun e => allowlist.contains
            (normalizePath cwd e.sourcePath plan.homeDir plan.platform))
            rest := by
        simp [List.filter_cons, contains_true_mem _ _ he]
      rw [e1]
      simp only [applyManifestEntries]
      rw [ih]
    · have hfalse : allowlist.contains
          (normalizePath cwd e.sourcePath plan.homeDir plan.platform) = false := by
        simpa using he
      have e1 : List.filter (fun e => allowlist.contains
          (normalizePath cwd e.sourcePath plan.homeDir plan.platform))
          (e :: rest) =
          List.filter (fun e => allowlist.contains
            (normalizePath cwd e.sourcePath plan.homeDir plan.platform))
            rest := by
        simp [List.filter_cons, contains_false_not_mem _ _ hfalse]
      rw [e1, ← ih]
      simp only [applyManifestEntries]
      rw [applyManifestEntry_not_allowed cwd plan allowlist fsExists e hfalse]
      simp

/-- Claim C9: applying an extra-path manifest touches the local filesystem
only through entries whose normalized source path is in the plan's current
allow-list. The effect trace over a manifest equals the trace over the
manifest restricted to allow-listed entries, and an entry whose normalized
source path is absent from the allow-list contributes no effect at all. -/
theorem applyExtraPaths_allowlist_only (cwd : String) (plan : SyncPlan)
    (extra : ExtraPathPlan) (fsExists : String → Bool)
    (entries : List ExtraPathManifestEntry) :
    applyExtraPaths cwd plan extra fsExists entries =
      applyExtraPaths cwd plan extra fsExists
        (entries.filter (fun e => extra.allowlist.contains
          (normalizePath cwd e.sourcePath plan.homeDir plan.platform))) ∧
    (∀ e ∈ entries,
      extra.allowlist.contains
        (normalizePath cwd e.sourcePath plan.homeDir plan.platform) = false →
      applyManifestEntry cwd plan extra.allowlist fsExists e = []) := by
  constructor
  · unfold applyExtraPaths
    by_cases h1 : extra.allowlist = []
    · simp [h1]
    · by_cases h2 : fsExists extra.manifestPath = false
      · simp [h1, h2]
      · rw [if_neg h1, if_neg h1, if_neg h2, if_neg h2]
        exact applyManifestEntries_filter cwd plan extra.allowlist
          fsExists entries
  · intro e _ he
    exact applyManifestEntry_not_allowed cwd plan extra.allowlist fsExists e he

/-- A minimal plan for the allow-list witness. -/
def testApplyPlan : SyncPlan :=
  { items := [],
    extraSecrets := { allowlist := [], manifestPath := "", entries := [] },
    extraConfigs := { allowlist := [], manifestPath := "", entries := [] },
    repoRoot := "/repo", homeDir := "/home/test", platform := .linux }

/-- A stale manifest entry whose source path was removed from the
configuration. -/
def testStaleEntry : ExtraPathManifestEntry :=
  { sourcePath := "/home/test/.ssh/old_key", repoPath := "secrets/extra/old",
    type := some ExtraPathType.file, mode := some 384, items := none }

/-- Witness for C9: a stale entry absent from the allow-list produces no
filesystem effect. -/
theorem applyExtraPaths_allowlist_only_witness :
    ((["/home/test/.config/allowed"] : List String).contains
      (normalizePath "/" "/home/test/.ssh/old_key" "/home/test"
        Platform.linux) = false) ∧
    applyManifestEntry "/" testApplyPlan ["/home/test/.config/allowed"]
      (fun _ => true) testStaleEntry = [] :=
  ⟨by decide,
   (applyExtraPaths_allowlist_only "/" testApplyPlan
      { allowlist := ["/home/test/.config/allowed"],
        manifestPath := "/repo/secrets/extra-manifest.json", entries := [] }
      (fun _ => true) [testStaleEntry]).2 testStaleEntry (by simp) (by decide)⟩
